import Mathlib

/-!
# FactoryUI workflow engine — verification of the spec's claims

Shallow embedding of the graph compilation and execution engine of the
FactoryUI backend (`backend/continuous_executor.py`,
`backend/core/workflow_executor.py`, `backend/core/node_base.py`),
together with proofs settling the frozen claims about it.

Modelling conventions:
* Python dicts are association lists with first-match lookup; assignment
  replaces the existing binding in place or appends a fresh one, which
  gives the same lookup function as a Python dict.
* Python values flowing through the engine (node outputs, parameters,
  schema specs) are modelled by the inductive `PyVal`, which distinguishes
  `None`, numbers, strings, tuples, lists and dicts — the executor branches
  on exactly these shapes (`isinstance(..., tuple)`, `isinstance(..., dict)`,
  `is not None`).
* Raising an exception is modelled by `Except String`; the payload is the
  message where the message matters, and the remaining-node list for the
  cycle error of the continuous executor (whose message embeds that set).
* The iteration order of a Python `set` is unspecified; `node_ids` is
  modelled as the list of node ids in first-occurrence order.  None of the
  proved properties depend on that choice.
* The `while queue:` loop of Kahn's algorithm is modelled with explicit
  fuel `nodes.length + edges.length + 1`; the proofs show the queue always
  empties strictly before the fuel does, so the fuel is never the binding
  constraint.
-/

namespace FactoryUI

/-! ## Python values and dictionaries -/

/-- A Python value as seen by the executor: `None`, an integer, a string,
a tuple, a list, or a string-keyed dict. -/
inductive PyVal where
  | vnone : PyVal
  | vint : Int → PyVal
  | vstr : String → PyVal
  | vtup : List PyVal → PyVal
  | vlist : List PyVal → PyVal
  | vdict : List (String × PyVal) → PyVal

/-- `x is None` in Python. -/
def PyVal.isNone : PyVal → Bool
  | .vnone => true
  | _ => false

/-- `isinstance(x, tuple) and len(x) == 2` in Python. -/
def PyVal.isPair : PyVal → Bool
  | .vtup [_, _] => true
  | _ => false

/-- String-keyed association list standing for a Python dict over values
of type `α`. -/
abbrev AList (α : Type) := List (String × α)

/-- Python `d.get(k)` / `d[k]`: first-match lookup. -/
def alookup {α : Type} : AList α → String → Option α
  | [], _ => none
  | (k, v) :: rest, key => if k = key then some v else alookup rest key

/-- Python `k in d`. -/
def amem {α : Type} (d : AList α) (k : String) : Bool :=
  (alookup d k).isSome

/-- Python `d[k] = v`: replace the binding in place, or append a new one. -/
def aset {α : Type} : AList α → String → α → AList α
  | [], k, v => [(k, v)]
  | (k', v') :: rest, k, v =>
    if k' = k then (k, v) :: rest else (k', v') :: aset rest k v

/-- Python `d.update(u)`: assign every binding of `u` into `d` in order. -/
def aupdate {α : Type} (d u : AList α) : AList α :=
  u.foldl (fun acc kv => aset acc kv.1 kv.2) d

/-- A dict of Python values (node inputs, node results, parameters). -/
abbrev Dict := AList PyVal

/-! ## Workflow graph data -/

/-- An edge of the user-submitted graph.  `sourceHandle`/`targetHandle`
hold the result of Python's `edge.get(...)` with its defaults `"output"`
and `"input"` already applied. -/
structure Edge where
  source : String
  target : String
  sourceHandle : String
  targetHandle : String

/-- The schema part of a node placement's `data.nodeInfo.input_types`:
required and optional input specs, each an arbitrary Python value that the
default-filling loop inspects structurally. -/
structure NodeInfo where
  required : AList PyVal
  optional : AList PyVal

/-- A node placement of the workflow graph: its id, its
`data.parameters` dict, and its `data.nodeInfo` (`none` also covers the
falsy empty dict, which the source skips with `if node_info:`). -/
structure Node where
  id : String
  params : Dict
  nodeInfo : Option NodeInfo

/-! ## Topological sort (ContinuousExecutor._topological_sort and
WorkflowExecutor._topological_sort)

Both methods run the same Kahn's algorithm; the continuous executor
discards edges whose endpoints are not in the node set and reports the
remaining node ids on a cycle, the basic executor keeps all edges and
raises a bare `ValueError("Workflow contains cycles")`. -/

/-- The node ids of the graph in first-occurrence order, deduplicated
(models the Python set `node_ids`). -/
def uniqueIds : List Node → List String
  | [] => []
  | n :: ns => n.id :: (uniqueIds ns).filter (fun x => x ≠ n.id)

/-- The edges the continuous executor keeps: both endpoints must be known
node ids (`if source in node_ids and target in node_ids`). -/
def filteredEdges (nodes : List Node) (edges : List Edge) : List Edge :=
  edges.filter (fun e =>
    (uniqueIds nodes).contains e.source && (uniqueIds nodes).contains e.target)

/-- `graph[s]`: out-neighbors of `s`, appended in edge order
(`graph[source].append(target)`). -/
def outAdj (E : List Edge) (s : String) : List String :=
  (E.filter (fun e => e.source == s)).map Edge.target

/-- Initial `in_degree[t]`: the number of kept edges into `t`
(as a Python int, so decrements below may in principle go negative). -/
def initDeg (E : List Edge) (t : String) : Int :=
  ((E.filter (fun e => e.target == t)).length : Int)

/-- The inner `for neighbor in graph[current]` loop: decrement each
neighbor's in-degree and enqueue it when the count reaches zero. -/
def processNeighbors (deg : String → Int) (queue : List String) :
    List String → (String → Int) × List String
  | [] => (deg, queue)
  | n :: ns =>
    let d := deg n - 1
    let deg' := fun x => if x = n then d else deg x
    let queue' := if d = 0 then queue ++ [n] else queue
    processNeighbors deg' queue' ns

/-- The `while queue:` loop of Kahn's algorithm, with explicit fuel. -/
def kahnLoop (graph : String → List String) :
    Nat → (String → Int) → List String → List String → List String
  | 0, _, _, result => result
  | fuel + 1, deg, queue, result =>
    match queue with
    | [] => result
    | current :: rest =>
      let s := processNeighbors deg rest (graph current)
      kahnLoop graph fuel s.1 s.2 (result ++ [current])

/-- Fuel that provably outlasts the queue: one unit per possible enqueue. -/
def topoFuel (nodes : List Node) (edges : List Edge) : Nat :=
  nodes.length + edges.length + 1

/-- The full Kahn run shared by both `_topological_sort` methods:
initial degrees from the edge list, initial queue of zero-in-degree node
ids, then the removal loop. -/
def kahnResult (nodeIds : List String) (E : List Edge) (fuel : Nat) :
    List String :=
  kahnLoop (outAdj E) fuel (initDeg E)
    (nodeIds.filter (fun v => initDeg E v == 0)) []

/-- `ContinuousExecutor._topological_sort`: Kahn's algorithm over the
edges whose endpoints both lie in the node set; on a cycle it raises
carrying `node_ids - set(result)` (modelled as the sublist of node ids
not in the result). -/
def topologicalSort (nodes : List Node) (edges : List Edge) :
    Except (List String) (List String) :=
  let nodeIds := uniqueIds nodes
  let E := filteredEdges nodes edges
  let result := kahnResult nodeIds E (topoFuel nodes edges)
  if result.length = nodeIds.length then .ok result
  else .error (nodeIds.filter (fun v => !result.contains v))

/-- `WorkflowExecutor._topological_sort`: the same algorithm but edges are
not filtered against the node set, and the cycle error names no nodes. -/
def basicTopologicalSort (nodes : List Node) (edges : List Edge) :
    Except String (List String) :=
  let nodeIds := uniqueIds nodes
  let result := kahnResult nodeIds edges (topoFuel nodes edges)
  if result.length = nodeIds.length then .ok result
  else .error "Workflow contains cycles"

/-- The dependency relation induced by an edge list. -/
def edgeRel (E : List Edge) (u v : String) : Prop :=
  ∃ e, e ∈ E ∧ e.source = u ∧ e.target = v

/-! ## Input resolution (ContinuousExecutor._prepare_node_inputs_optimized
and WorkflowExecutor._prepare_node_inputs) -/

/-- `int(source_handle.split("-")[1])`: Python raises on a missing or
non-numeric part, which the caller propagates as a node failure.
(The part between two dashes can never parse to a negative int.) -/
def parseOutputIndex (h : String) : Option Nat :=
  ((h.splitOn "-").get? 1).bind String.toNat?

/-- One step of the edge loop of `_prepare_node_inputs_optimized`: if the
edge feeds `nodeId` and its source has a result, assign the selected value
under the target handle.  Mirrors the tuple / dict / scalar branches of
the source; the only failing path is `int()` on a malformed
`output-<N>` handle. -/
def applyEdge (nodeId : String) (results : Dict) (inputs : Dict) (e : Edge) :
    Except String Dict :=
  if e.target = nodeId then
    match alookup results e.source with
    | none => .ok inputs
    | some sourceResult =>
      match sourceResult with
      | .vtup vs =>
        if e.sourceHandle.startsWith "output-" then
          match parseOutputIndex e.sourceHandle with
          | none => .error "invalid output index"
          | some index =>
            if h : index < vs.length then
              .ok (aset inputs e.targetHandle (vs.get ⟨index, h⟩))
            else .ok inputs
        else if vs.length = 1 then
          .ok (aset inputs e.targetHandle (vs.headD .vnone))
        else
          .ok (aset inputs e.targetHandle (if vs.isEmpty then .vnone else vs.headD .vnone))
      | .vdict kvs =>
        match alookup kvs e.sourceHandle with
        | some v => .ok (aset inputs e.targetHandle v)
        | none => .ok (aset inputs e.targetHandle sourceResult)
      | _ => .ok (aset inputs e.targetHandle sourceResult)
  else .ok inputs

/-- The full edge loop: fold `applyEdge` over the stored edges. -/
def applyEdges (edges : List Edge) (nodeId : String) (results : Dict)
    (inputs : Dict) : Except String Dict :=
  match edges with
  | [] => .ok inputs
  | e :: rest =>
    match applyEdge nodeId results inputs e with
    | .error m => .error m
    | .ok inputs' => applyEdges rest nodeId results inputs'

/-- One step of the schema-default loops: fill `name` from its spec's
option bag only when every structural guard of the source holds
(`name not in inputs`, the spec is a list of length > 1, entry 1 is a
dict containing `"default"`). -/
def fillDefault (d : Dict) (name : String) (spec : PyVal) : Dict :=
  if !(amem d name) then
    match spec with
    | .vlist vs =>
      if vs.length > 1 then
        match vs.get? 1 with
        | some (.vdict bag) =>
          match alookup bag "default" with
          | some dv => aset d name dv
          | none => d
        | _ => d
      else d
    | _ => d
  else d

/-- `for input_name, input_spec in ...items():` over one schema dict. -/
def fillDefaults (specs : AList PyVal) (d : Dict) : Dict :=
  match specs with
  | [] => d
  | (name, spec) :: rest => fillDefaults rest (fillDefault d name spec)

/-- The `nodeInfo` default-filling stage: required specs first, then
optional ones; skipped entirely when `node_info` is absent or falsy. -/
def applyDefaults (ni : Option NodeInfo) (d : Dict) : Dict :=
  match ni with
  | none => d
  | some info => fillDefaults info.optional (fillDefaults info.required d)

/-- `ContinuousExecutor._prepare_node_inputs_optimized`: edge values
first, then the placement's parameter dict on top, then schema defaults
for names still absent. -/
def prepareNodeInputs (edges : List Edge) (nodeId : String) (node : Node)
    (results : Dict) : Except String Dict :=
  match applyEdges edges nodeId results [] with
  | .error m => .error m
  | .ok fromEdges => .ok (applyDefaults node.nodeInfo (aupdate fromEdges node.params))

/-- One step of the edge loop of the basic
`WorkflowExecutor._prepare_node_inputs`: only the dict / scalar branches
exist there, so the step is total. -/
def applyEdgeBasic (nodeId : String) (results : Dict) (inputs : Dict)
    (e : Edge) : Dict :=
  if e.target = nodeId then
    match alookup results e.source with
    | none => inputs
    | some sourceResult =>
      match sourceResult with
      | .vdict kvs =>
        match alookup kvs e.sourceHandle with
        | some v => aset inputs e.targetHandle v
        | none => aset inputs e.targetHandle sourceResult
      | _ => aset inputs e.targetHandle sourceResult
  else inputs

/-- `WorkflowExecutor._prepare_node_inputs`: edge values, then the
placement's parameter dict on top; no schema-default stage. -/
def prepareNodeInputsBasic (edges : List Edge) (nodeId : String)
    (node : Node) (results : Dict) : Dict :=
  aupdate (edges.foldl (applyEdgeBasic nodeId results) []) node.params

/-! ## Node execution (NodeBase.validate_inputs,
ContinuousExecutor._execute_node_optimized, WorkflowExecutor._execute_node) -/

/-- A registered node type as the executors see it: the required-input
names of its `INPUT_TYPES()` schema, and the bound entry function
(`getattr(instance, FUNCTION())`), which may raise. -/
structure NodeClass where
  requiredKeys : List String
  run : Dict → Except String PyVal

/-- `NodeBase.validate_inputs`: walk the required inputs and raise on the
first one missing from the keyword arguments; otherwise return `True`. -/
def validateInputs (required : List String) (inputs : Dict) :
    Except String Bool :=
  match required with
  | [] => .ok true
  | k :: ks =>
    if amem inputs k then validateInputs ks inputs
    else .error ("Missing required input: " ++ k)

/-- `(outputs, live_update)` interpretation of a node's return value: a
2-tuple is split, anything else is the outputs alone with `None` as the
live update. -/
def interpResult (result : PyVal) : PyVal × PyVal :=
  match result with
  | .vtup [a, b] => (a, b)
  | r => (r, .vnone)

/-- The pre-computed execution context of a loaded workflow: the stored
edge list, the pre-instantiated node class for each id
(`_node_instances`), and the cached placement data for each id
(`_node_data_map`). -/
structure PassConfig where
  edges : List Edge
  classes : String → NodeClass
  nodeData : String → Node

/-- `ContinuousExecutor._execute_node_optimized`: prepare inputs, run the
validation step inside `try: ... except: pass` (its outcome is computed
and discarded), invoke the entry function, and interpret the return as
`(node_result, rt_update)`. -/
def executeNodeOptimized (cfg : PassConfig) (nodeId : String)
    (results : Dict) : Except String (PyVal × PyVal) :=
  match prepareNodeInputs cfg.edges nodeId (cfg.nodeData nodeId) results with
  | .error m => .error m
  | .ok inputs =>
    let _validation := validateInputs (cfg.classes nodeId).requiredKeys inputs
    match (cfg.classes nodeId).run inputs with
    | .error m => .error m
    | .ok result => .ok (interpResult result)

/-- `WorkflowExecutor._execute_node`: prepare inputs, call
`validate_inputs` unguarded (a failure propagates), invoke the entry
function and store its whole return value (no tuple interpretation). -/
def executeNodeBasic (cfg : PassConfig) (nodeId : String) (results : Dict) :
    Except String PyVal :=
  let inputs := prepareNodeInputsBasic cfg.edges nodeId (cfg.nodeData nodeId) results
  match validateInputs (cfg.classes nodeId).requiredKeys inputs with
  | .error m => .error m
  | .ok _ =>
    match (cfg.classes nodeId).run inputs with
    | .error m => .error m
    | .ok result => .ok result

/-! ## Events and the single-pass executor
(ContinuousExecutor._execute_workflow_once_optimized) -/

/-- The broadcasts the engine publishes through the event sink, with the
payload fields the claims speak about (timing fields are not modelled). -/
inductive Event where
  | nodeExecuting : String → Event
  | nodeCompleted : String → PyVal → Event
  | nodeError : String → String → Event
  | iterExecuting : Nat → Event
  | iterCompleted : Nat → Event
  | workflowError : String → Event
  | continuousStopped : Nat → Event

/-- The node loop of `_execute_workflow_once_optimized`: broadcast
`executing`, run the node, store a non-`None` result into the pass-local
map, broadcast `completed` with the live update; on an exception
broadcast `error` and re-raise. -/
def runPassAux (cfg : PassConfig) :
    List String → Dict → List Event → List Event × Except String Dict
  | [], results, evs => (evs, .ok results)
  | nodeId :: rest, results, evs =>
    let evs1 := evs ++ [Event.nodeExecuting nodeId]
    match executeNodeOptimized cfg nodeId results with
    | .ok (nodeResult, rtUpdate) =>
      let results' := if nodeResult.isNone then results
        else aset results nodeId nodeResult
      runPassAux cfg rest results' (evs1 ++ [Event.nodeCompleted nodeId rtUpdate])
    | .error m => (evs1 ++ [Event.nodeError nodeId m], .error m)

/-- `ContinuousExecutor._execute_workflow_once_optimized` at the engine
level: the pass accumulates into a fresh local map and commits it to
`self.execution_results` only when every node succeeded; on an exception
the previous results survive and the exception is re-raised (`some msg`). -/
def executeWorkflowOnceOptimized (cfg : PassConfig) (order : List String)
    (executionResults : Dict) : List Event × Dict × Option String :=
  match runPassAux cfg order [] [] with
  | (evs, .ok nodeResults) => (evs, nodeResults, none)
  | (evs, .error m) => (evs, executionResults, some m)

/-- The node loop of the basic `WorkflowExecutor.execute_workflow`: each
node's whole result is stored into `self.execution_results` as soon as it
completes; the first exception stops the loop with the map as-is. -/
def runPassBasicAux (cfg : PassConfig) :
    List String → Dict → Dict × Option String
  | [], results => (results, none)
  | nodeId :: rest, results =>
    match executeNodeBasic cfg nodeId results with
    | .ok r => runPassBasicAux cfg rest (aset results nodeId r)
    | .error m => (results, some m)

/-! ## Continuous scheduler (ContinuousExecutor._execution_loop,
start_continuous_execution, stop_continuous_execution,
update_node_parameter) -/

/-- The scheduler state the loop mutates: the running flag, the iteration
counter and the event trail (timing fields are not modelled). -/
structure LoopState where
  isRunning : Bool
  countOfIterations : Nat
  events : List Event

/-- `stop_continuous_execution`: warn-and-return when not running,
otherwise flip the flag and broadcast `continuous_stopped` with the total
iteration count (thread joining is outside the model). -/
def stopContinuousExecution (st : LoopState) : LoopState :=
  if !st.isRunning then st
  else { st with isRunning := false,
                 events := st.events ++ [Event.continuousStopped st.countOfIterations] }

/-- `_execution_loop`, with the outcome of the pass of iteration `i`
abstracted as `passes i` (the pass itself is modelled separately by
`executeWorkflowOnceOptimized`).  Each round broadcasts `executing`,
runs the pass, and on success increments the counter and broadcasts
`completed`; an exception broadcasts `workflow_error`, stops the
scheduler and leaves the loop.  Fuel bounds the number of rounds
modelled. -/
def executionLoop (passes : Nat → Except String Dict) :
    Nat → LoopState → LoopState
  | 0, st => st
  | fuel + 1, st =>
    if st.isRunning then
      let st1 := { st with
        events := st.events ++ [Event.iterExecuting (st.countOfIterations + 1)] }
      match passes (st1.countOfIterations + 1) with
      | .ok _ =>
        let st2 := { st1 with countOfIterations := st1.countOfIterations + 1 }
        executionLoop passes fuel
          { st2 with events := st2.events ++ [Event.iterCompleted st2.countOfIterations] }
      | .error m =>
        stopContinuousExecution
          { st1 with events := st1.events ++ [Event.workflowError m] }
    else st

/-- The administrative state touched by `start_continuous_execution`:
the running flag, whether a workflow is loaded, the iteration counter,
the id of the launched worker thread (with a counter standing for thread
creation), and the log list as `(level, message)` pairs. -/
structure ExecState where
  isRunning : Bool
  hasWorkflow : Bool
  countOfIterations : Nat
  thread : Option Nat
  nextThreadId : Nat
  logs : List (String × String)

/-- `start_continuous_execution`: warn-and-return when already running,
log an error and return when no workflow is loaded, otherwise set the
flag, reset the counter and launch one new worker thread. -/
def startContinuousExecution (st : ExecState) : ExecState :=
  if st.isRunning then
    { st with logs := st.logs ++ [("warning", "Continuous execution is already running")] }
  else if !st.hasWorkflow then
    { st with logs := st.logs ++ [("error", "No workflow loaded. Cannot start execution.")] }
  else
    { st with isRunning := true,
              countOfIterations := 0,
              thread := some st.nextThreadId,
              nextThreadId := st.nextThreadId + 1,
              logs := st.logs ++ [("info", "Started continuous execution")] }

/-- The compiled-plan cache of the continuous executor:
`_is_setup`, `_execution_order`, `_node_data_map` and `_node_instances`
(instances abstracted to opaque tokens). -/
structure PlanState where
  isSetup : Bool
  executionOrder : List String
  nodeDataMap : AList Node
  nodeInstances : AList Nat

/-- Replace the value stored under the first occurrence of `k`. -/
def amodify {α : Type} (d : AList α) (k : String) (f : α → α) : AList α :=
  match d with
  | [] => []
  | (k', v) :: rest =>
    if k' = k then (k', f v) :: rest else (k', v) :: amodify rest k f

/-- `ContinuousExecutor.update_node_parameter`: when the plan is built
and the id is cached, mutate that placement's parameter dict in place and
return `True`; otherwise log a warning and return `False`.  The Python
body is wrapped in a `try/except` that returns `False`, so the call never
raises. -/
def updateNodeParameter (st : PlanState) (nodeId paramName : String)
    (value : PyVal) : Bool × PlanState :=
  if st.isSetup && amem st.nodeDataMap nodeId then
    let setParam := fun (n : Node) => { n with params := aset n.params paramName value }
    (true, { st with nodeDataMap := amodify st.nodeDataMap nodeId setParam })
  else
    (false, st)

/-! ## Specification-side definitions used to state and prove the claims -/

/-- Position of the first occurrence of `x` in `l` (length of `l` when
absent). -/
def idxIn : List String → String → Nat
  | [], _ => 0
  | y :: ys, x => if y = x then 0 else idxIn ys x + 1

/-- `u` occurs strictly before `v` in `l`. -/
def appearsBefore (l : List String) (u v : String) : Prop :=
  u ∈ l ∧ v ∈ l ∧ idxIn l u < idxIn l v

/-- Number of edges into `v` whose source has not yet been removed:
the value Kahn's algorithm keeps in `in_degree[v]` once the nodes of
`result` have been processed. -/
def remDegN (E : List Edge) (result : List String) (v : String) : Nat :=
  (E.filter (fun e => decide (e.target = v ∧ e.source ∉ result))).length

/-- Number of edges from `s` to `t` in `E` (with multiplicity). -/
def countEdgesN (E : List Edge) (s t : String) : Nat :=
  (E.filter (fun e => decide (e.source = s ∧ e.target = t))).length

/-- The events the continuous loop appends when, starting after `c`
completed iterations, the next `N - 1` passes succeed and the `N`-th
raises `m`. -/
def loopTrace (m : String) : Nat → Nat → List Event
  | _, 0 => []
  | c, k + 1 =>
    if k = 0 then
      [Event.iterExecuting (c + 1), Event.workflowError m, Event.continuousStopped c]
    else
      [Event.iterExecuting (c + 1), Event.iterCompleted (c + 1)] ++ loopTrace m (c + 1) k

/-- Recognizer for `workflow_error` broadcasts. -/
def isWorkflowErrorEv : Event → Bool
  | .workflowError _ => true
  | _ => false

/-! ## Dictionary lemmas -/

theorem alookup_aset_self {α : Type} (d : AList α) (k : String) (v : α) :
    alookup (aset d k v) k = some v := by
  induction d with
  | nil => simp [aset, alookup]
  | cons kv rest ih =>
    by_cases h : kv.1 = k
    · simp [aset, h, alookup]
    · simp [aset, h, alookup, ih]

theorem alookup_aset_ne {α : Type} (d : AList α) {k k' : String} (v : α)
    (h : k' ≠ k) : alookup (aset d k v) k' = alookup d k' := by
  have hkk : ¬ (k = k') := fun hc => h hc.symm
  induction d with
  | nil => simp [aset, alookup, hkk]
  | cons kv rest ih =>
    by_cases hk : kv.1 = k
    · have hne : ¬ (kv.1 = k') := by rw [hk]; exact hkk
      simp [aset, hk, alookup, hkk, hne]
    · simp [aset, hk, alookup, ih]

theorem amem_aset_of_amem {α : Type} (d : AList α) {k k' : String} (v : α)
    (h : amem d k' = true) : amem (aset d k v) k' = true := by
  by_cases hkk : k' = k
  · subst hkk; simp [amem, alookup_aset_self]
  · simpa [amem, alookup_aset_ne d v hkk] using h

theorem alookup_aupdate_not_mem {α : Type} (u : AList α) :
    ∀ (d : AList α) (k : String), k ∉ u.map Prod.fst →
      alookup (aupdate d u) k = alookup d k := by
  induction u with
  | nil => intro d k _; rfl
  | cons kv rest ih =>
    intro d k hk
    simp only [List.map_cons, List.mem_cons, not_or] at hk
    have step : aupdate d (kv :: rest) = aupdate (aset d kv.1 kv.2) rest := rfl
    rw [step, ih _ k hk.2, alookup_aset_ne _ _ hk.1]

theorem alookup_aupdate_mem {α : Type} (u : AList α) :
    ∀ (d : AList α) (k : String) (v : α), (u.map Prod.fst).Nodup →
      (k, v) ∈ u → alookup (aupdate d u) k = some v := by
  induction u with
  | nil => intro d k v _ h; cases h
  | cons kv rest ih =>
    intro d k v hnd hm
    have step : aupdate d (kv :: rest) = aupdate (aset d kv.1 kv.2) rest := rfl
    simp only [List.map_cons, List.nodup_cons] at hnd
    rcases List.mem_cons.mp hm with h | h
    · subst h
      rw [step, alookup_aupdate_not_mem rest _ _ hnd.1, alookup_aset_self]
    · have : k ∈ rest.map Prod.fst := List.mem_map.mpr ⟨(k, v), h, rfl⟩
      exact step ▸ ih _ k v hnd.2 h

theorem alookup_amodify_ne {α : Type} (d : AList α) {k k' : String}
    (f : α → α) (h : k' ≠ k) : alookup (amodify d k f) k' = alookup d k' := by
  have hkk : ¬ (k = k') := fun hc => h hc.symm
  induction d with
  | nil => rfl
  | cons kv rest ih =>
    by_cases hk : kv.1 = k
    · have hne : ¬ (kv.1 = k') := by rw [hk]; exact hkk
      simp [amodify, hk, alookup, hne, hkk]
    · simp [amodify, hk, alookup, ih]

theorem alookup_amodify_self {α : Type} (d : AList α) {k : String}
    (f : α → α) {v : α} (h : alookup d k = some v) :
    alookup (amodify d k f) k = some (f v) := by
  induction d with
  | nil => simp [alookup] at h
  | cons kv rest ih =>
    by_cases hk : kv.1 = k
    · subst hk
      simp [alookup] at h
      simp [amodify, alookup, h]
    · simp [alookup, hk] at h
      simp [amodify, hk, alookup, ih h]

/-! ## Position lemmas -/

theorem idxIn_append_left {l : List String} {x : String} (h : x ∈ l)
    (l' : List String) : idxIn (l ++ l') x = idxIn l x := by
  induction l with
  | nil => cases h
  | cons y ys ih =>
    by_cases hy : y = x
    · simp [idxIn, hy]
    · rcases List.mem_cons.mp h with h' | h'
      · exact absurd h'.symm hy
      · simp [idxIn, hy, ih h']

theorem idxIn_append_right {l : List String} {x : String} (h : x ∉ l)
    (l' : List String) : idxIn (l ++ l') x = l.length + idxIn l' x := by
  induction l with
  | nil => simp [idxIn]
  | cons y ys ih =>
    have hy : y ≠ x := fun hc => h (hc ▸ List.mem_cons_self y ys)
    have hx : x ∉ ys := fun hc => h (List.mem_cons_of_mem y hc)
    simp [idxIn, hy, ih hx]
    omega

theorem idxIn_lt_length {l : List String} {x : String} (h : x ∈ l) :
    idxIn l x < l.length := by
  induction l with
  | nil => cases h
  | cons y ys ih =>
    by_cases hy : y = x
    · simp [idxIn, hy]
    · rcases List.mem_cons.mp h with h' | h'
      · exact absurd h'.symm hy
      · simp only [idxIn, hy, if_false, List.length_cons]
        exact Nat.succ_lt_succ (ih h')

theorem appearsBefore_append {l l' : List String} {u v : String}
    (h : appearsBefore l u v) : appearsBefore (l ++ l') u v := by
  obtain ⟨hu, hv, hlt⟩ := h
  exact ⟨List.mem_append_left _ hu, List.mem_append_left _ hv,
    by rw [idxIn_append_left hu, idxIn_append_left hv]; exact hlt⟩

theorem appearsBefore_append_singleton {l : List String} {u c : String}
    (hu : u ∈ l) (hc : c ∉ l) : appearsBefore (l ++ [c]) u c := by
  refine ⟨List.mem_append_left _ hu, List.mem_append_right _ (List.mem_singleton.mpr rfl), ?_⟩
  rw [idxIn_append_left hu, idxIn_append_right hc]
  have : idxIn [c] c = 0 := by simp [idxIn]
  rw [this]
  simpa using idxIn_lt_length hu

/-! ## Node-id and edge-set lemmas -/

theorem contains_iff {l : List String} {a : String} :
    l.contains a = true ↔ a ∈ l := by
  simp [List.contains, List.elem_iff]

theorem contains_eq_false {l : List String} {a : String} (h : a ∉ l) :
    l.contains a = false := by
  cases hb : l.contains a
  · rfl
  · exact absurd (contains_iff.mp hb) h

theorem uniqueIds_nodup (nodes : List Node) : (uniqueIds nodes).Nodup := by
  induction nodes with
  | nil => simp [uniqueIds]
  | cons n ns ih =>
    refine List.Nodup.cons ?_ (List.Nodup.filter _ ih)
    intro hmem
    rcases List.mem_filter.mp hmem with ⟨_, hne⟩
    simp at hne

theorem uniqueIds_length_le (nodes : List Node) :
    (uniqueIds nodes).length ≤ nodes.length := by
  induction nodes with
  | nil => simp [uniqueIds]
  | cons n ns ih =>
    simp only [uniqueIds, List.length_cons]
    exact Nat.succ_le_succ (le_trans (List.length_filter_le _ _) ih)

theorem filteredEdges_endpoints {nodes : List Node} {edges : List Edge}
    {e : Edge} (h : e ∈ filteredEdges nodes edges) :
    e.source ∈ uniqueIds nodes ∧ e.target ∈ uniqueIds nodes := by
  rcases List.mem_filter.mp h with ⟨_, hcond⟩
  rcases Bool.and_eq_true_iff.mp hcond with ⟨hs, ht⟩
  exact ⟨contains_iff.mp hs, contains_iff.mp ht⟩

theorem mem_filteredEdges {nodes : List Node} {edges : List Edge} {e : Edge}
    (he : e ∈ edges) (hs : e.source ∈ uniqueIds nodes)
    (ht : e.target ∈ uniqueIds nodes) : e ∈ filteredEdges nodes edges := by
  refine List.mem_filter.mpr ⟨he, ?_⟩
  rw [contains_iff.mpr hs, contains_iff.mpr ht]
  rfl

theorem filteredEdges_eq_self {nodes : List Node} {edges : List Edge}
    (h : ∀ e ∈ edges, e.source ∈ uniqueIds nodes ∧ e.target ∈ uniqueIds nodes) :
    filteredEdges nodes edges = edges := by
  apply List.filter_eq_self.mpr
  intro e he
  rw [contains_iff.mpr (h e he).1, contains_iff.mpr (h e he).2]
  rfl

/-! ## Remaining-degree lemmas -/

theorem initDeg_eq_remDegN (E : List Edge) (v : String) :
    initDeg E v = (remDegN E [] v : Int) := by
  unfold initDeg remDegN
  congr 2
  apply List.filter_congr
  intro e _
  by_cases h : e.target = v <;> simp [h]

theorem remDegN_zero_sources {E : List Edge} {result : List String}
    {v : String} (h : remDegN E result v = 0) :
    ∀ e ∈ E, e.target = v → e.source ∈ result := by
  intro e he ht
  have hnil : E.filter (fun e => decide (e.target = v ∧ e.source ∉ result)) = [] :=
    List.length_eq_zero.mp h
  have := List.filter_eq_nil_iff.mp hnil e he
  simp only [decide_eq_true_eq, not_and, not_not] at this
  exact this ht

theorem remDegN_ne_zero_exists {E : List Edge} {result : List String}
    {v : String} (h : remDegN E result v ≠ 0) :
    ∃ e ∈ E, e.target = v ∧ e.source ∉ result := by
  have hpos : 0 < (E.filter (fun e => decide (e.target = v ∧ e.source ∉ result))).length :=
    Nat.pos_of_ne_zero h
  rcases List.exists_mem_of_length_pos hpos with ⟨e, he⟩
  rcases List.mem_filter.mp he with ⟨heE, hcond⟩
  simp only [decide_eq_true_eq] at hcond
  exact ⟨e, heE, hcond⟩

theorem filter_length_split (l : List Edge) (p q r : Edge → Bool)
    (h : ∀ e ∈ l, p e = (q e || r e) ∧ (q e && r e) = false) :
    (l.filter p).length = (l.filter q).length + (l.filter r).length := by
  induction l with
  | nil => simp
  | cons e rest ih =>
    obtain ⟨hp, hqr⟩ := h e (List.mem_cons_self e rest)
    have ihr := ih (fun e' he' => h e' (List.mem_cons_of_mem _ he'))
    rw [List.filter_cons, List.filter_cons, List.filter_cons]
    cases hq : q e <;> cases hr : r e <;> rw [hq, hr] at hp hqr <;>
      simp only [Bool.or_false, Bool.or_true, Bool.false_or, Bool.and_false,
        Bool.false_and, Bool.and_true, Bool.true_and, Bool.and_self] at hp hqr
    · simp [hp, hq, hr, ihr]
    · simp [hp, hq, hr, List.length_cons, ihr]
      omega
    · simp [hp, hq, hr, List.length_cons, ihr]
      omega
    · simp at hqr

theorem remDegN_append (E : List Edge) {result : List String}
    {current : String} (h : current ∉ result) (v : String) :
    remDegN E result v = remDegN E (result ++ [current]) v + countEdgesN E current v := by
  unfold remDegN countEdgesN
  apply filter_length_split
  intro e _
  constructor
  · by_cases ht : e.target = v <;> by_cases hs : e.source = current <;>
      by_cases hr : e.source ∈ result <;>
      simp [ht, hs, hr, h]
  · by_cases ht : e.target = v <;> by_cases hs : e.source = current <;>
      by_cases hr : e.source ∈ result <;> simp [ht, hs, hr, h]

theorem outAdj_cons (e : Edge) (rest : List Edge) (s : String) :
    outAdj (e :: rest) s =
      if e.source = s then e.target :: outAdj rest s else outAdj rest s := by
  unfold outAdj
  rw [List.filter_cons]
  by_cases hs : e.source = s <;> simp [hs]

theorem count_outAdj (E : List Edge) (s t : String) :
    (outAdj E s).count t = countEdgesN E s t := by
  induction E with
  | nil => simp [outAdj, countEdgesN]
  | cons e rest ih =>
    rw [outAdj_cons]
    unfold countEdgesN
    rw [List.filter_cons]
    by_cases hs : e.source = s <;> by_cases ht : e.target = t <;>
      simp [hs, ht, List.count_cons, ih, countEdgesN]

/-! ## Characterization of the neighbor-relaxation loop -/

theorem processNeighbors_spec (ns : List String) :
    ∀ (deg : String → Int) (queue : List String),
      (∀ v, (processNeighbors deg queue ns).1 v = deg v - (ns.count v : Int)) ∧
      ∃ extra, (processNeighbors deg queue ns).2 = queue ++ extra ∧
        extra.Nodup ∧
        (∀ v, v ∈ extra ↔ (0 < deg v ∧ deg v ≤ (ns.count v : Int))) := by
  induction ns with
  | nil =>
    intro deg queue
    refine ⟨fun v => by simp [processNeighbors], [], by simp [processNeighbors], by simp, ?_⟩
    intro v
    simp only [List.not_mem_nil, List.count_nil, Nat.cast_zero, false_iff]
    omega
  | cons n rest ih =>
    intro deg queue
    have hred : processNeighbors deg queue (n :: rest) =
        processNeighbors (fun x => if x = n then deg n - 1 else deg x)
          (if deg n - 1 = 0 then queue ++ [n] else queue) rest := rfl
    set deg1 := fun x => if x = n then deg n - 1 else deg x with hdeg1
    set queue1 := if deg n - 1 = 0 then queue ++ [n] else queue with hqueue1
    obtain ⟨hfst, extra', hsnd, hnd', hmem'⟩ := ih deg1 queue1
    constructor
    · intro v
      rw [hred, hfst v]
      by_cases hv : v = n
      · subst hv
        simp [hdeg1, List.count_cons]
        omega
      · simp [hdeg1, hv, List.count_cons, fun hc : n = v => hv hc.symm]
    · by_cases hz : deg n - 1 = 0
      · refine ⟨n :: extra', ?_, ?_, ?_⟩
        · rw [hred, hsnd, hqueue1, if_pos hz, List.append_assoc]
          rfl
        · refine List.Nodup.cons ?_ hnd'
          intro hmem
          have := (hmem' n).mp hmem
          simp [hdeg1] at this
          omega
        · intro v
          rw [List.mem_cons, hmem' v]
          by_cases hv : v = n
          · subst hv
            simp [hdeg1, List.count_cons]
            omega
          · simp [hdeg1, hv, List.count_cons, fun hc : n = v => hv hc.symm]
      · refine ⟨extra', ?_, hnd', ?_⟩
        · rw [hred, hsnd, hqueue1, if_neg hz]
        · intro v
          rw [hmem' v]
          by_cases hv : v = n
          · subst hv
            simp [hdeg1, List.count_cons]
            omega
          · simp [hdeg1, hv, List.count_cons, fun hc : n = v => hv hc.symm]

/-! ## The Kahn loop invariant

The loop state `(deg, queue, result)` maintains: `deg` is the number of
edges into each node from not-yet-removed sources; the removed and queued
nodes are distinct known ids; queued and removed nodes have remaining
degree zero and every zero-degree id is removed or queued; every edge
into a removed node comes from an earlier-removed node.  The fuel bound
makes the fuel-exhausted branch unreachable. -/

theorem kahnLoop_spec (E : List Edge) (nodeIds : List String)
    (hE : ∀ e ∈ E, e.source ∈ nodeIds ∧ e.target ∈ nodeIds) (fuel : Nat) :
    ∀ (deg : String → Int) (queue result : List String),
      (∀ v, deg v = (remDegN E result v : Int)) →
      (result ++ queue).Nodup →
      (∀ v ∈ result, v ∈ nodeIds) →
      (∀ v ∈ queue, v ∈ nodeIds) →
      (∀ v ∈ queue, remDegN E result v = 0) →
      (∀ v ∈ result, remDegN E result v = 0) →
      (∀ v ∈ nodeIds, remDegN E result v = 0 → v ∈ result ∨ v ∈ queue) →
      (∀ e ∈ E, e.target ∈ result → appearsBefore result e.source e.target) →
      nodeIds.length + 1 ≤ fuel + result.length →
      (kahnLoop (outAdj E) fuel deg queue result).Nodup ∧
      (∀ v ∈ kahnLoop (outAdj E) fuel deg queue result, v ∈ nodeIds) ∧
      (∀ e ∈ E, e.target ∈ kahnLoop (outAdj E) fuel deg queue result →
        appearsBefore (kahnLoop (outAdj E) fuel deg queue result) e.source e.target) ∧
      (∀ v ∈ nodeIds, v ∉ kahnLoop (outAdj E) fuel deg queue result →
        remDegN E (kahnLoop (outAdj E) fuel deg queue result) v ≠ 0) := by
  induction fuel with
  | zero =>
    intro deg queue result _ hnd hres _ _ _ _ _ hfuel
    exfalso
    have h1 : result.Nodup := (List.nodup_append.mp hnd).1
    have h2 := (List.subperm_of_subset h1 hres).length_le
    omega
  | succ fuel ih =>
    intro deg queue result hdeg hnd hres hq hqz hrz hz hbef hfuel
    match queue with
    | [] =>
      have hfinal : kahnLoop (outAdj E) (fuel + 1) deg [] result = result := rfl
      rw [hfinal]
      refine ⟨by simpa using hnd, hres, hbef, ?_⟩
      intro v hv hvr hzero
      rcases hz v hv hzero with h | h
      · exact hvr h
      · cases h
    | current :: rest =>
      obtain ⟨hfst, extra, hsnd, hndx, hmemx⟩ :=
        processNeighbors_spec (outAdj E current) deg rest
      -- Basic separation facts from the no-duplicates invariant.
      have hnd' := List.nodup_append.mp hnd
      have hcurR : current ∉ result := by
        intro hc
        exact hnd'.2.2 hc (List.mem_cons_self current rest)
      have hcurz : remDegN E result current = 0 :=
        hqz current (List.mem_cons_self current rest)
      have hsplit : ∀ v, remDegN E result v =
          remDegN E (result ++ [current]) v + countEdgesN E current v :=
        remDegN_append E hcurR
      -- The updated degree function tracks the degrees after removal.
      have hdeg' : ∀ v, (processNeighbors deg rest (outAdj E current)).1 v =
          (remDegN E (result ++ [current]) v : Int) := by
        intro v
        rw [hfst v, count_outAdj, hdeg v]
        have := hsplit v
        omega
      -- Facts about the freshly enqueued ids.
      have hx_pos : ∀ v ∈ extra, remDegN E result v ≠ 0 := by
        intro v hv
        have := (hmemx v).mp hv
        rw [hdeg v] at this
        omega
      have hx_zero : ∀ v ∈ extra, remDegN E (result ++ [current]) v = 0 := by
        intro v hv
        have h1 := (hmemx v).mp hv
        rw [hdeg v, count_outAdj] at h1
        have h2 := hsplit v
        omega
      have hx_in : ∀ v, remDegN E (result ++ [current]) v = 0 →
          remDegN E result v ≠ 0 → v ∈ extra := by
        intro v hnew hold
        refine (hmemx v).mpr ?_
        rw [hdeg v, count_outAdj]
        have h2 := hsplit v
        omega
      have hx_fresh : ∀ v ∈ extra, v ∉ result ∧ v ≠ current ∧ v ∉ rest := by
        intro v hv
        refine ⟨fun hc => hx_pos v hv (hrz v hc), fun hc => hx_pos v hv (hc ▸ hcurz), ?_⟩
        intro hc
        exact hx_pos v hv (hqz v (List.mem_cons_of_mem current hc))
      have hx_node : ∀ v ∈ extra, v ∈ nodeIds := by
        intro v hv
        rcases remDegN_ne_zero_exists (hx_pos v hv) with ⟨e, heE, ht, _⟩
        exact ht ▸ (hE e heE).2
      -- Re-establish every invariant for the next state.
      have inv2 : ((result ++ [current]) ++ (rest ++ extra)).Nodup := by
        have hold : ((result ++ [current]) ++ rest).Nodup := by
          rw [List.append_assoc]
          simpa using hnd
        rw [← List.append_assoc]
        refine List.nodup_append.mpr ⟨hold, hndx, ?_⟩
        intro a ha hax
        obtain ⟨h1, h2, h3⟩ := hx_fresh a hax
        rcases List.mem_append.mp ha with h | h
        · rcases List.mem_append.mp h with h' | h'
          · exact h1 h'
          · exact h2 (List.mem_singleton.mp h')
        · exact h3 h
      have inv3 : ∀ v ∈ result ++ [current], v ∈ nodeIds := by
        intro v hv
        rcases List.mem_append.mp hv with h | h
        · exact hres v h
        · exact (List.mem_singleton.mp h) ▸ hq current (List.mem_cons_self current rest)
      have inv4 : ∀ v ∈ rest ++ extra, v ∈ nodeIds := by
        intro v hv
        rcases List.mem_append.mp hv with h | h
        · exact hq v (List.mem_cons_of_mem current h)
        · exact hx_node v h
      have inv5 : ∀ v ∈ rest ++ extra, remDegN E (result ++ [current]) v = 0 := by
        intro v hv
        rcases List.mem_append.mp hv with h | h
        · have h1 := hqz v (List.mem_cons_of_mem current h)
          have h2 := hsplit v
          omega
        · exact hx_zero v h
      have inv6 : ∀ v ∈ result ++ [current], remDegN E (result ++ [current]) v = 0 := by
        intro v hv
        rcases List.mem_append.mp hv with h | h
        · have h1 := hrz v h
          have h2 := hsplit v
          omega
        · have h1 : v = current := List.mem_singleton.mp h
          have h2 := hsplit v
          rw [h1] at h2 ⊢
          omega
      have inv7 : ∀ v ∈ nodeIds, remDegN E (result ++ [current]) v = 0 →
          v ∈ result ++ [current] ∨ v ∈ rest ++ extra := by
        intro v hv hnew
        by_cases hold : remDegN E result v = 0
        · rcases hz v hv hold with h | h
          · exact Or.inl (List.mem_append_left _ h)
          · rcases List.mem_cons.mp h with h' | h'
            · exact Or.inl (List.mem_append_right _ (h' ▸ List.mem_singleton.mpr rfl))
            · exact Or.inr (List.mem_append_left _ h')
        · exact Or.inr (List.mem_append_right _ (hx_in v hnew hold))
      have inv8 : ∀ e ∈ E, e.target ∈ result ++ [current] →
          appearsBefore (result ++ [current]) e.source e.target := by
        intro e heE ht
        rcases List.mem_append.mp ht with h | h
        · exact appearsBefore_append (hbef e heE h)
        · have hc : e.target = current := List.mem_singleton.mp h
          have hsrc : e.source ∈ result := remDegN_zero_sources hcurz e heE hc
          rw [hc]
          exact appearsBefore_append_singleton hsrc hcurR
      have inv9 : nodeIds.length + 1 ≤ fuel + (result ++ [current]).length := by
        rw [List.length_append]
        simp only [List.length_singleton]
        omega
      have hred : kahnLoop (outAdj E) (fuel + 1) deg (current :: rest) result =
          kahnLoop (outAdj E) fuel (processNeighbors deg rest (outAdj E current)).1
            (processNeighbors deg rest (outAdj E current)).2 (result ++ [current]) := rfl
      rw [hred, hsnd]
      exact ih _ _ _ hdeg' inv2 inv3 inv4 inv5 inv6 inv7 inv8 inv9

/-- The Kahn run on a well-formed initial state: the removed ids are
distinct known node ids, sources precede targets, and every unremoved
node id still has an incoming edge from an unremoved source. -/
theorem kahnResult_spec (nodeIds : List String) (E : List Edge) (fuel : Nat)
    (hE : ∀ e ∈ E, e.source ∈ nodeIds ∧ e.target ∈ nodeIds)
    (hN : nodeIds.Nodup) (hfuel : nodeIds.length + 1 ≤ fuel) :
    (kahnResult nodeIds E fuel).Nodup ∧
    (∀ v ∈ kahnResult nodeIds E fuel, v ∈ nodeIds) ∧
    (∀ e ∈ E, e.target ∈ kahnResult nodeIds E fuel →
      appearsBefore (kahnResult nodeIds E fuel) e.source e.target) ∧
    (∀ v ∈ nodeIds, v ∉ kahnResult nodeIds E fuel →
      remDegN E (kahnResult nodeIds E fuel) v ≠ 0) := by
  have hdeg0 : ∀ v, initDeg E v = (remDegN E [] v : Int) := initDeg_eq_remDegN E
  have hq0 : ∀ v ∈ nodeIds.filter (fun v => initDeg E v == 0), v ∈ nodeIds :=
    fun v hv => (List.mem_filter.mp hv).1
  have hq0z : ∀ v ∈ nodeIds.filter (fun v => initDeg E v == 0),
      remDegN E [] v = 0 := by
    intro v hv
    have h1 := (List.mem_filter.mp hv).2
    have h2 : initDeg E v = 0 := by simpa using h1
    rw [hdeg0 v] at h2
    omega
  have hz0 : ∀ v ∈ nodeIds, remDegN E [] v = 0 →
      v ∈ ([] : List String) ∨ v ∈ nodeIds.filter (fun v => initDeg E v == 0) := by
    intro v hv hzero
    refine Or.inr (List.mem_filter.mpr ⟨hv, ?_⟩)
    rw [hdeg0 v, hzero]
    rfl
  exact kahnLoop_spec E nodeIds hE fuel (initDeg E) _ [] hdeg0
    (by simpa using hN.filter _) (by intro v hv; cases hv) hq0 hq0z
    (by intro v hv; cases hv) hz0 (by intro e _ hv; cases hv)
    (by simpa using hfuel)

/-! ## Cycles versus the removal order -/

theorem transGen_first {α : Type} {r : α → α → Prop} {a b : α}
    (h : Relation.TransGen r a b) : ∃ c, r a c := by
  induction h with
  | single h1 => exact ⟨_, h1⟩
  | tail _ _ ih => exact ih

theorem transGen_single_pair {R : String → String → Prop} {A B : String}
    (hR : ∀ u v, R u v → u = A ∧ v = B) (hne : A ≠ B) :
    ∀ v, ¬ Relation.TransGen R v v := by
  have hAB : ∀ u v, Relation.TransGen R u v → u = A ∧ v = B := by
    intro u v h
    induction h with
    | single h1 => exact hR _ _ h1
    | tail _ h2 ih => exact ⟨ih.1, (hR _ _ h2).2⟩
  intro v hv
  obtain ⟨h1, h2⟩ := hAB v v hv
  exact hne (h1 ▸ h2 ▸ rfl)

/-- From the source-before-target property of an order, a transitive
dependency chain ending inside the order starts inside it, strictly
earlier. -/
theorem before_of_transGen {F : List String} {E : List Edge}
    (hbef : ∀ e ∈ E, e.target ∈ F → appearsBefore F e.source e.target)
    {u v : String} (h : Relation.TransGen (edgeRel E) u v) :
    v ∈ F → u ∈ F ∧ idxIn F u < idxIn F v := by
  induction h with
  | single h1 =>
    intro hv
    obtain ⟨e, heE, hs, ht⟩ := h1
    obtain ⟨h1, _, h3⟩ := hbef e heE (ht ▸ hv)
    exact ⟨hs ▸ h1, by rw [← hs, ← ht]; exact h3⟩
  | tail _ h2 ih =>
    intro hv
    obtain ⟨e, heE, hs, ht⟩ := h2
    obtain ⟨hb, _, hlt⟩ := hbef e heE (ht ▸ hv)
    obtain ⟨huF, hlt2⟩ := ih (hs ▸ hb)
    refine ⟨huF, lt_trans hlt2 ?_⟩
    rw [← hs, ← ht]
    exact hlt

theorem cycle_not_mem_order {F : List String} {E : List Edge}
    (hbef : ∀ e ∈ E, e.target ∈ F → appearsBefore F e.source e.target)
    {v : String} (h : Relation.TransGen (edgeRel E) v v) : v ∉ F := by
  intro hv
  exact absurd (before_of_transGen hbef h hv).2 (lt_irrefl _)

/-- If the graph restricted to known ids is acyclic, the Kahn run removes
every node id: any unremoved node would have an unremoved predecessor,
and iterating that step inside a finite id set closes a cycle. -/
theorem acyclic_all_mem {nodeIds : List String} {E : List Edge}
    {F : List String}
    (hE : ∀ e ∈ E, e.source ∈ nodeIds ∧ e.target ∈ nodeIds)
    (hmiss : ∀ v ∈ nodeIds, v ∉ F → remDegN E F v ≠ 0)
    (hacyc : ∀ v, ¬ Relation.TransGen (edgeRel E) v v) :
    ∀ v ∈ nodeIds, v ∈ F := by
  classical
  by_contra hcon
  push_neg at hcon
  obtain ⟨v0, hv0n, hv0F⟩ := hcon
  have hstep : ∀ v, v ∈ nodeIds → v ∉ F →
      ∃ u, (u ∈ nodeIds ∧ u ∉ F) ∧ edgeRel E u v := by
    intro v hvN hvF
    rcases remDegN_ne_zero_exists (hmiss v hvN hvF) with ⟨e, heE, ht, hs⟩
    exact ⟨e.source, ⟨(hE e heE).1, hs⟩, e, heE, rfl, ht⟩
  set P : String → Prop := fun v => v ∈ nodeIds ∧ v ∉ F with hP
  set f : String → String :=
    fun v => if h : P v then (hstep v h.1 h.2).choose else v with hf
  have hfP : ∀ v, P v → P (f v) ∧ edgeRel E (f v) v := by
    intro v hv
    rw [hf]
    simp only [dif_pos hv]
    exact ⟨(hstep v hv.1 hv.2).choose_spec.1, (hstep v hv.1 hv.2).choose_spec.2⟩
  have hiter : ∀ k, P (f^[k] v0) := by
    intro k
    induction k with
    | zero => exact ⟨hv0n, hv0F⟩
    | succ k ihk =>
      rw [Function.iterate_succ_apply']
      exact (hfP _ ihk).1
  have hedge : ∀ k, edgeRel E (f^[k + 1] v0) (f^[k] v0) := by
    intro k
    rw [Function.iterate_succ_apply']
    exact (hfP _ (hiter k)).2
  have hchain : ∀ d k,
      Relation.TransGen (edgeRel E) (f^[k + d + 1] v0) (f^[k] v0) := by
    intro d
    induction d with
    | zero => exact fun k => Relation.TransGen.single (hedge k)
    | succ d ihd =>
      intro k
      have h1 := hedge (k + d + 1)
      have h2 : k + (d + 1) + 1 = (k + d + 1) + 1 := by omega
      rw [h2]
      exact Relation.TransGen.head h1 (ihd k)
  have hcard : (nodeIds.toFinset).card < (Finset.range (nodeIds.length + 1)).card := by
    rw [Finset.card_range]
    exact Nat.lt_succ_of_le (List.toFinset_card_le nodeIds)
  obtain ⟨i, _, j, _, hij, heq⟩ :=
    Finset.exists_ne_map_eq_of_card_lt_of_maps_to hcard
      (fun k _ => List.mem_toFinset.mpr (hiter k).1)
  rcases Nat.lt_or_ge i j with hlt | hge
  · have h2 : i + (j - i - 1) + 1 = j := by omega
    have h3 := hchain (j - i - 1) i
    rw [h2, heq] at h3
    exact hacyc _ h3
  · have hlt : j < i := by omega
    have h2 : j + (i - j - 1) + 1 = i := by omega
    have h3 := hchain (i - j - 1) j
    rw [h2, ← heq] at h3
    exact hacyc _ h3

/-! ## Claim C1 — acyclic graphs compile to a dependency-respecting order -/

/-- C1 (amended): for every workflow graph whose edge relation restricted
to edges with both endpoints in the node set is acyclic,
`ContinuousExecutor._topological_sort` returns a list containing each
node id exactly once in which every such edge's source appears strictly
before its target; `WorkflowExecutor._topological_sort` returns the same
list provided every edge's endpoints lie in the node set (it does not
discard dangling edges, and can reject an acyclic graph otherwise). -/
theorem claim1_compile_acyclic_order (nodes : List Node) (edges : List Edge)
    (hacyc : ∀ v, ¬ Relation.TransGen (edgeRel (filteredEdges nodes edges)) v v) :
    ∃ order, topologicalSort nodes edges = Except.ok order ∧
      order.Perm (uniqueIds nodes) ∧
      (∀ e ∈ edges, e.source ∈ uniqueIds nodes → e.target ∈ uniqueIds nodes →
        appearsBefore order e.source e.target) ∧
      ((∀ e ∈ edges, e.source ∈ uniqueIds nodes ∧ e.target ∈ uniqueIds nodes) →
        basicTopologicalSort nodes edges = Except.ok order) := by
  have hE : ∀ e ∈ filteredEdges nodes edges,
      e.source ∈ uniqueIds nodes ∧ e.target ∈ uniqueIds nodes :=
    fun e he => filteredEdges_endpoints he
  have hN := uniqueIds_nodup nodes
  have hfuel : (uniqueIds nodes).length + 1 ≤ topoFuel nodes edges := by
    have := uniqueIds_length_le nodes
    unfold topoFuel
    omega
  obtain ⟨hFnd, hFsub, hFbef, hFmiss⟩ :=
    kahnResult_spec (uniqueIds nodes) (filteredEdges nodes edges) _ hE hN hfuel
  have hall := acyclic_all_mem hE hFmiss hacyc
  have hperm : (kahnResult (uniqueIds nodes) (filteredEdges nodes edges)
      (topoFuel nodes edges)).Perm (uniqueIds nodes) :=
    (List.subperm_of_subset hFnd hFsub).antisymm (List.subperm_of_subset hN hall)
  have hlen := hperm.length_eq
  refine ⟨_, ?_, hperm, ?_, ?_⟩
  · simp only [topologicalSort]
    rw [if_pos hlen]
  · intro e he hs ht
    have heF : e ∈ filteredEdges nodes edges := mem_filteredEdges he hs ht
    exact hFbef e heF (hall _ ht)
  · intro hW
    have hkr : kahnResult (uniqueIds nodes) edges (topoFuel nodes edges) =
        kahnResult (uniqueIds nodes) (filteredEdges nodes edges)
          (topoFuel nodes edges) := by
      rw [filteredEdges_eq_self hW]
    simp only [basicTopologicalSort]
    rw [hkr, if_pos hlen]

/-- C1 counterexample: on the acyclic one-node graph with the dangling
edge `A → X` (whose restricted edge relation is empty, hence acyclic) the
basic executor's `_topological_sort` raises its cycle error instead of
returning an order, while the continuous executor's version succeeds. -/
theorem claim1_basic_sort_dangling_edge_cex :
    (∀ v, ¬ Relation.TransGen
      (edgeRel (filteredEdges [⟨"A", [], none⟩] [⟨"A", "X", "output", "input"⟩])) v v) ∧
    basicTopologicalSort [⟨"A", [], none⟩] [⟨"A", "X", "output", "input"⟩] =
      Except.error "Workflow contains cycles" ∧
    topologicalSort [⟨"A", [], none⟩] [⟨"A", "X", "output", "input"⟩] =
      Except.ok ["A"] := by
  refine ⟨?_, rfl, rfl⟩
  intro v hv
  obtain ⟨c, e, he, _, _⟩ := transGen_first hv
  have hnil : filteredEdges [⟨"A", [], none⟩] [⟨"A", "X", "output", "input"⟩] =
      [] := rfl
  rw [hnil] at he
  cases he

/-- C1 witness: the two-node graph `a → b` is acyclic and compiles. -/
theorem claim1_compile_acyclic_order_witness :
    ∃ order, topologicalSort [⟨"a", [], none⟩, ⟨"b", [], none⟩]
        [⟨"a", "b", "output", "input"⟩] = Except.ok order ∧
      order.Perm (uniqueIds [⟨"a", [], none⟩, ⟨"b", [], none⟩]) ∧
      (∀ e ∈ [(⟨"a", "b", "output", "input"⟩ : Edge)],
        e.source ∈ uniqueIds [⟨"a", [], none⟩, ⟨"b", [], none⟩] →
        e.target ∈ uniqueIds [⟨"a", [], none⟩, ⟨"b", [], none⟩] →
        appearsBefore order e.source e.target) ∧
      ((∀ e ∈ [(⟨"a", "b", "output", "input"⟩ : Edge)],
        e.source ∈ uniqueIds [⟨"a", [], none⟩, ⟨"b", [], none⟩] ∧
        e.target ∈ uniqueIds [⟨"a", [], none⟩, ⟨"b", [], none⟩]) →
        basicTopologicalSort [⟨"a", [], none⟩, ⟨"b", [], none⟩]
          [⟨"a", "b", "output", "input"⟩] = Except.ok order) := by
  apply claim1_compile_acyclic_order
  have hfe : filteredEdges [⟨"a", [], none⟩, ⟨"b", [], none⟩]
      [⟨"a", "b", "output", "input"⟩] = [⟨"a", "b", "output", "input"⟩] := rfl
  have hR : ∀ u v,
      edgeRel (filteredEdges [⟨"a", [], none⟩, ⟨"b", [], none⟩]
        [⟨"a", "b", "output", "input"⟩]) u v → u = "a" ∧ v = "b" := by
    rintro u v ⟨e, he, hs, ht⟩
    rw [hfe] at he
    have := List.mem_singleton.mp he
    subst this
    exact ⟨hs.symm, ht.symm⟩
  exact transGen_single_pair hR (by decide)

/-! ## Claim C2 — cyclic graphs fail naming the unremovable remainder -/

/-- C2 (amended): for every workflow graph with a cycle among edges whose
endpoints lie in the node set, `ContinuousExecutor._topological_sort`
raises an error naming exactly the node ids Kahn's algorithm could not
remove: a nonempty set containing every node that participates in a
cycle, in which every named node has an incoming edge from another named
node — but the set may also contain cycle-free nodes that are merely
reachable from a cycle.  `WorkflowExecutor._topological_sort` (when every
edge endpoint is a node id) raises an error naming no nodes at all. -/
theorem claim2_cycle_error_names_remainder (nodes : List Node)
    (edges : List Edge)
    (hcyc : ∃ v, Relation.TransGen (edgeRel (filteredEdges nodes edges)) v v) :
    ∃ remaining, topologicalSort nodes edges = Except.error remaining ∧
      remaining ≠ [] ∧
      (∀ v, Relation.TransGen (edgeRel (filteredEdges nodes edges)) v v →
        v ∈ remaining) ∧
      (∀ v ∈ remaining, ∃ u ∈ remaining,
        edgeRel (filteredEdges nodes edges) u v) ∧
      ((∀ e ∈ edges, e.source ∈ uniqueIds nodes ∧ e.target ∈ uniqueIds nodes) →
        basicTopologicalSort nodes edges =
          Except.error "Workflow contains cycles") := by
  have hE : ∀ e ∈ filteredEdges nodes edges,
      e.source ∈ uniqueIds nodes ∧ e.target ∈ uniqueIds nodes :=
    fun e he => filteredEdges_endpoints he
  have hN := uniqueIds_nodup nodes
  have hfuel : (uniqueIds nodes).length + 1 ≤ topoFuel nodes edges := by
    have := uniqueIds_length_le nodes
    unfold topoFuel
    omega
  obtain ⟨hFnd, hFsub, hFbef, hFmiss⟩ :=
    kahnResult_spec (uniqueIds nodes) (filteredEdges nodes edges) _ hE hN hfuel
  have hcycN : ∀ v, Relation.TransGen (edgeRel (filteredEdges nodes edges)) v v →
      v ∈ uniqueIds nodes := by
    intro v hv
    obtain ⟨c, e, heE, hs, _⟩ := transGen_first hv
    exact hs ▸ (hE e heE).1
  have hnotF : ∀ v, Relation.TransGen (edgeRel (filteredEdges nodes edges)) v v →
      v ∉ kahnResult (uniqueIds nodes) (filteredEdges nodes edges)
        (topoFuel nodes edges) :=
    fun v hv => cycle_not_mem_order hFbef hv
  obtain ⟨v0, hv0⟩ := hcyc
  have hv0N := hcycN v0 hv0
  have hv0F := hnotF v0 hv0
  have hlt : (kahnResult (uniqueIds nodes) (filteredEdges nodes edges)
      (topoFuel nodes edges)).length < (uniqueIds nodes).length := by
    have hsub2 : ∀ x ∈ kahnResult (uniqueIds nodes) (filteredEdges nodes edges)
        (topoFuel nodes edges), x ∈ (uniqueIds nodes).erase v0 := by
      intro x hx
      have hxne : x ≠ v0 := by
        intro hxv
        subst hxv
        exact hv0F hx
      exact (List.mem_erase_of_ne hxne).mpr (hFsub x hx)
    have h1 := (List.subperm_of_subset hFnd hsub2).length_le
    have h2 := List.length_erase_of_mem hv0N
    have h3 : 0 < (uniqueIds nodes).length :=
      List.length_pos.mpr (List.ne_nil_of_mem hv0N)
    omega
  have hne : ¬ ((kahnResult (uniqueIds nodes) (filteredEdges nodes edges)
      (topoFuel nodes edges)).length = (uniqueIds nodes).length) := by
    omega
  refine ⟨(uniqueIds nodes).filter
      (fun v => !(kahnResult (uniqueIds nodes) (filteredEdges nodes edges)
        (topoFuel nodes edges)).contains v), ?_, ?_, ?_, ?_, ?_⟩
  · simp only [topologicalSort]
    rw [if_neg hne]
  · have hv0mem : v0 ∈ (uniqueIds nodes).filter
        (fun v => !(kahnResult (uniqueIds nodes) (filteredEdges nodes edges)
          (topoFuel nodes edges)).contains v) :=
      List.mem_filter.mpr ⟨hv0N, by rw [contains_eq_false hv0F]; rfl⟩
    exact List.ne_nil_of_mem hv0mem
  · intro v hv
    exact List.mem_filter.mpr ⟨hcycN v hv, by rw [contains_eq_false (hnotF v hv)]; rfl⟩
  · intro v hv
    obtain ⟨hvN, hvc⟩ := List.mem_filter.mp hv
    have hvF : v ∉ kahnResult (uniqueIds nodes) (filteredEdges nodes edges)
        (topoFuel nodes edges) := by
      intro hmem
      rw [contains_iff.mpr hmem] at hvc
      simp at hvc
    rcases remDegN_ne_zero_exists (hFmiss v hvN hvF) with ⟨e, heE, ht, hs⟩
    refine ⟨e.source, List.mem_filter.mpr ⟨(hE e heE).1, ?_⟩, e, heE, rfl, ht⟩
    rw [contains_eq_false hs]
    rfl
  · intro hW
    have hkr : kahnResult (uniqueIds nodes) edges (topoFuel nodes edges) =
        kahnResult (uniqueIds nodes) (filteredEdges nodes edges)
          (topoFuel nodes edges) := by
      rw [filteredEdges_eq_self hW]
    simp only [basicTopologicalSort]
    rw [hkr, if_neg hne]

/-- C2 counterexample: in the graph with edges `A → B`, `B → A`, `B → C`
the node `C` participates in no cycle, yet the raised error names it
(the unremovable remainder also contains nodes merely reachable from the
cycle), refuting "every reported id participates in a cycle". -/
theorem claim2_cycle_error_cex :
    topologicalSort [⟨"A", [], none⟩, ⟨"B", [], none⟩, ⟨"C", [], none⟩]
      [⟨"A", "B", "output", "input"⟩, ⟨"B", "A", "output", "input"⟩,
        ⟨"B", "C", "output", "input"⟩] = Except.error ["A", "B", "C"] ∧
    ¬ Relation.TransGen
      (edgeRel (filteredEdges [⟨"A", [], none⟩, ⟨"B", [], none⟩, ⟨"C", [], none⟩]
        [⟨"A", "B", "output", "input"⟩, ⟨"B", "A", "output", "input"⟩,
          ⟨"B", "C", "output", "input"⟩])) "C" "C" := by
  refine ⟨rfl, ?_⟩
  intro hv
  obtain ⟨c, e, he, hs, _⟩ := transGen_first hv
  have hfe : filteredEdges [⟨"A", [], none⟩, ⟨"B", [], none⟩, ⟨"C", [], none⟩]
      [⟨"A", "B", "output", "input"⟩, ⟨"B", "A", "output", "input"⟩,
        ⟨"B", "C", "output", "input"⟩] =
      [⟨"A", "B", "output", "input"⟩, ⟨"B", "A", "output", "input"⟩,
        ⟨"B", "C", "output", "input"⟩] := rfl
  rw [hfe] at he
  simp only [List.mem_cons, List.mem_singleton, List.not_mem_nil, or_false] at he
  rcases he with rfl | rfl | rfl <;> exact absurd hs (by decide)

/-- C2 witness: the two-node cycle `A ⇄ B` fails with both ids named. -/
theorem claim2_cycle_error_names_remainder_witness :
    ∃ remaining, topologicalSort [⟨"A", [], none⟩, ⟨"B", [], none⟩]
        [⟨"A", "B", "output", "input"⟩, ⟨"B", "A", "output", "input"⟩] =
        Except.error remaining ∧
      remaining ≠ [] ∧
      (∀ v, Relation.TransGen
        (edgeRel (filteredEdges [⟨"A", [], none⟩, ⟨"B", [], none⟩]
          [⟨"A", "B", "output", "input"⟩, ⟨"B", "A", "output", "input"⟩])) v v →
        v ∈ remaining) ∧
      (∀ v ∈ remaining, ∃ u ∈ remaining,
        edgeRel (filteredEdges [⟨"A", [], none⟩, ⟨"B", [], none⟩]
          [⟨"A", "B", "output", "input"⟩, ⟨"B", "A", "output", "input"⟩]) u v) ∧
      ((∀ e ∈ [(⟨"A", "B", "output", "input"⟩ : Edge),
          ⟨"B", "A", "output", "input"⟩],
        e.source ∈ uniqueIds [⟨"A", [], none⟩, ⟨"B", [], none⟩] ∧
        e.target ∈ uniqueIds [⟨"A", [], none⟩, ⟨"B", [], none⟩]) →
        basicTopologicalSort [⟨"A", [], none⟩, ⟨"B", [], none⟩]
          [⟨"A", "B", "output", "input"⟩, ⟨"B", "A", "output", "input"⟩] =
          Except.error "Workflow contains cycles") := by
  apply claim2_cycle_error_names_remainder
  have hfe : filteredEdges [⟨"A", [], none⟩, ⟨"B", [], none⟩]
      [⟨"A", "B", "output", "input"⟩, ⟨"B", "A", "output", "input"⟩] =
      [⟨"A", "B", "output", "input"⟩, ⟨"B", "A", "output", "input"⟩] := rfl
  have h1 : edgeRel (filteredEdges [⟨"A", [], none⟩, ⟨"B", [], none⟩]
      [⟨"A", "B", "output", "input"⟩, ⟨"B", "A", "output", "input"⟩]) "A" "B" :=
    ⟨⟨"A", "B", "output", "input"⟩, by rw [hfe]; exact List.mem_cons_self _ _, rfl, rfl⟩
  have h2 : edgeRel (filteredEdges [⟨"A", [], none⟩, ⟨"B", [], none⟩]
      [⟨"A", "B", "output", "input"⟩, ⟨"B", "A", "output", "input"⟩]) "B" "A" :=
    ⟨⟨"B", "A", "output", "input"⟩,
      by rw [hfe]; exact List.mem_cons_of_mem _ (List.mem_cons_self _ _), rfl, rfl⟩
  exact ⟨"A", Relation.TransGen.head h1 (Relation.TransGen.single h2)⟩

/-! ## Input-resolution lemmas -/

theorem alookup_fillDefault_of_mem {d : Dict} {k : String}
    (h : amem d k = true) (name : String) (spec : PyVal) :
    alookup (fillDefault d name spec) k = alookup d k := by
  by_cases hn : amem d name
  · simp [fillDefault, hn]
  · have hk : k ≠ name := fun hc => hn (hc ▸ h)
    simp only [fillDefault, hn, Bool.not_false, if_true]
    cases spec <;> try rfl
    next vs =>
      dsimp only
      by_cases hl : vs.length > 1
      · rw [if_pos hl]
        cases hget : vs.get? 1 <;> try rfl
        next val =>
          cases val <;> try rfl
          next bag =>
            dsimp only
            cases hlk : alookup bag "default" <;> try rfl
            next dv =>
              dsimp only
              exact alookup_aset_ne d dv hk
      · rw [if_neg hl]

theorem amem_fillDefault_of_mem {d : Dict} {k : String}
    (h : amem d k = true) (name : String) (spec : PyVal) :
    amem (fillDefault d name spec) k = true := by
  unfold amem
  rw [alookup_fillDefault_of_mem h name spec]
  exact h

theorem alookup_fillDefaults_of_mem (specs : AList PyVal) :
    ∀ (d : Dict) (k : String), amem d k = true →
      alookup (fillDefaults specs d) k = alookup d k := by
  induction specs with
  | nil => intro d k _; rfl
  | cons ns rest ih =>
    intro d k h
    have step : fillDefaults (ns :: rest) d =
        fillDefaults rest (fillDefault d ns.1 ns.2) := rfl
    rw [step, ih _ k (amem_fillDefault_of_mem h ns.1 ns.2),
      alookup_fillDefault_of_mem h ns.1 ns.2]

theorem amem_fillDefaults_of_mem (specs : AList PyVal) {d : Dict} {k : String}
    (h : amem d k = true) : amem (fillDefaults specs d) k = true := by
  unfold amem
  rw [alookup_fillDefaults_of_mem specs d k h]
  exact h

theorem alookup_applyDefaults_of_mem (ni : Option NodeInfo) {d : Dict}
    {k : String} (h : amem d k = true) :
    alookup (applyDefaults ni d) k = alookup d k := by
  cases ni with
  | none => rfl
  | some info =>
    have step : applyDefaults (some info) d =
        fillDefaults info.optional (fillDefaults info.required d) := rfl
    rw [step, alookup_fillDefaults_of_mem _ _ _
      (amem_fillDefaults_of_mem _ h), alookup_fillDefaults_of_mem _ _ _ h]

theorem amem_aupdate_mem {u : AList PyVal} {k : String} {v : PyVal}
    (hnd : (u.map Prod.fst).Nodup) (hm : (k, v) ∈ u) (d : Dict) :
    amem (aupdate d u) k = true := by
  unfold amem
  rw [alookup_aupdate_mem u d k v hnd hm]
  rfl

/-! ## Claim C3 — explicit parameters overwrite edge values; defaults
fill only names still absent -/

/-- C3: input resolution applies the placement's parameter map after the
edge-derived values, so every explicitly set parameter wins over any
edge-fed value for the same input name, for any edge list whatsoever;
schema defaults never touch a name present after those two steps (so they
fill only names still absent).  The basic executor's resolver gives its
parameters the same priority. -/
theorem claim3_params_override_edges (edges : List Edge) (nodeId : String)
    (node : Node) (results : Dict) (fromEdges : Dict)
    (hnd : (node.params.map Prod.fst).Nodup)
    (hedges : applyEdges edges nodeId results [] = Except.ok fromEdges) :
    prepareNodeInputs edges nodeId node results =
      Except.ok (applyDefaults node.nodeInfo (aupdate fromEdges node.params)) ∧
    (∀ k v, (k, v) ∈ node.params →
      alookup (applyDefaults node.nodeInfo (aupdate fromEdges node.params)) k =
        some v) ∧
    (∀ k, amem (aupdate fromEdges node.params) k = true →
      alookup (applyDefaults node.nodeInfo (aupdate fromEdges node.params)) k =
        alookup (aupdate fromEdges node.params) k) ∧
    (∀ k v, (k, v) ∈ node.params →
      alookup (prepareNodeInputsBasic edges nodeId node results) k = some v) := by
  refine ⟨?_, ?_, ?_, ?_⟩
  · simp [prepareNodeInputs, hedges]
  · intro k v hm
    rw [alookup_applyDefaults_of_mem node.nodeInfo (amem_aupdate_mem hnd hm fromEdges)]
    exact alookup_aupdate_mem node.params fromEdges k v hnd hm
  · intro k hk
    exact alookup_applyDefaults_of_mem node.nodeInfo hk
  · intro k v hm
    exact alookup_aupdate_mem node.params _ k v hnd hm

/-- C3 witness: node `B` has explicit parameter `p = 5`, input `p` is also
fed by an edge from `A` (whose result is `9`), and input `q` has schema
default `7`; the resolved `p` is the explicit `5`. -/
theorem claim3_params_override_edges_witness :
    prepareNodeInputs [⟨"A", "B", "output", "p"⟩] "B"
        ⟨"B", [("p", PyVal.vint 5)],
          some ⟨[("q", PyVal.vlist [PyVal.vstr "INT",
            PyVal.vdict [("default", PyVal.vint 7)]])], []⟩⟩
        [("A", PyVal.vint 9)] =
      Except.ok (applyDefaults
        (some ⟨[("q", PyVal.vlist [PyVal.vstr "INT",
          PyVal.vdict [("default", PyVal.vint 7)]])], []⟩)
        (aupdate [("p", PyVal.vint 9)] [("p", PyVal.vint 5)])) ∧
    (∀ k v, (k, v) ∈ [("p", PyVal.vint 5)] →
      alookup (applyDefaults
        (some ⟨[("q", PyVal.vlist [PyVal.vstr "INT",
          PyVal.vdict [("default", PyVal.vint 7)]])], []⟩)
        (aupdate [("p", PyVal.vint 9)] [("p", PyVal.vint 5)])) k = some v) ∧
    (∀ k, amem (aupdate [("p", PyVal.vint 9)] [("p", PyVal.vint 5)]) k = true →
      alookup (applyDefaults
        (some ⟨[("q", PyVal.vlist [PyVal.vstr "INT",
          PyVal.vdict [("default", PyVal.vint 7)]])], []⟩)
        (aupdate [("p", PyVal.vint 9)] [("p", PyVal.vint 5)])) k =
          alookup (aupdate [("p", PyVal.vint 9)] [("p", PyVal.vint 5)]) k) ∧
    (∀ k v, (k, v) ∈ [("p", PyVal.vint 5)] →
      alookup (prepareNodeInputsBasic [⟨"A", "B", "output", "p"⟩] "B"
        ⟨"B", [("p", PyVal.vint 5)],
          some ⟨[("q", PyVal.vlist [PyVal.vstr "INT",
            PyVal.vdict [("default", PyVal.vint 7)]])], []⟩⟩
        [("A", PyVal.vint 9)]) k = some v) :=
  claim3_params_override_edges [⟨"A", "B", "output", "p"⟩] "B"
    ⟨"B", [("p", PyVal.vint 5)],
      some ⟨[("q", PyVal.vlist [PyVal.vstr "INT",
        PyVal.vdict [("default", PyVal.vint 7)]])], []⟩⟩
    [("A", PyVal.vint 9)] [("p", PyVal.vint 9)] (by simp) rfl

/-! ## Claim C4 — schema validation is advisory in the continuous
executor, but blocking in the basic executor -/

/-- C4 (amended): the continuous executor computes the validation step
inside `try/except: pass`, so even when validation fails the entry
function is invoked and its (interpreted) result is returned; the basic
`WorkflowExecutor._execute_node` calls `validate_inputs` unguarded, so
there a validation failure aborts the node before the entry function is
invoked. -/
theorem claim4_validation_advisory (cfg : PassConfig) (nodeId : String)
    (results : Dict) (inputs : Dict) (m m2 : String) :
    (prepareNodeInputs cfg.edges nodeId (cfg.nodeData nodeId) results =
        Except.ok inputs →
      validateInputs (cfg.classes nodeId).requiredKeys inputs =
        Except.error m →
      executeNodeOptimized cfg nodeId results =
        Except.map interpResult ((cfg.classes nodeId).run inputs)) ∧
    (validateInputs (cfg.classes nodeId).requiredKeys
        (prepareNodeInputsBasic cfg.edges nodeId (cfg.nodeData nodeId) results) =
        Except.error m2 →
      executeNodeBasic cfg nodeId results = Except.error m2) := by
  constructor
  · intro hprep _
    unfold executeNodeOptimized
    rw [hprep]
    dsimp only
    cases hr : (cfg.classes nodeId).run inputs <;> rfl
  · intro hval
    simp only [executeNodeBasic]
    rw [hval]

/-- C4 counterexample: a node class whose entry function would return
`42` but whose schema requires an input `x` that is absent; the basic
executor's node execution ends in the validation error and the entry
function's value never surfaces — the call did not proceed. -/
theorem claim4_basic_blocks_invocation_cex :
    executeNodeBasic
      ⟨[], fun _ => ⟨["x"], fun _ => Except.ok (PyVal.vint 42)⟩,
        fun i => ⟨i, [], none⟩⟩ "n" [] =
      Except.error "Missing required input: x" ∧
    (PassConfig.classes
      ⟨[], fun _ => ⟨["x"], fun _ => Except.ok (PyVal.vint 42)⟩,
        fun i => ⟨i, [], none⟩⟩ "n").run
      (prepareNodeInputsBasic [] "n" ⟨"n", [], none⟩ []) =
      Except.ok (PyVal.vint 42) :=
  ⟨rfl, rfl⟩

/-- C4 witness: on the same failing-validation node, the continuous
executor still invokes the entry function and returns its value, while
the basic executor returns the validation error. -/
theorem claim4_validation_advisory_witness :
    executeNodeOptimized
      ⟨[], fun _ => ⟨["x"], fun _ => Except.ok (PyVal.vint 42)⟩,
        fun i => ⟨i, [], none⟩⟩ "n" [] =
      Except.map interpResult
        ((PassConfig.classes
          ⟨[], fun _ => ⟨["x"], fun _ => Except.ok (PyVal.vint 42)⟩,
            fun i => ⟨i, [], none⟩⟩ "n").run []) ∧
    executeNodeBasic
      ⟨[], fun _ => ⟨["x"], fun _ => Except.ok (PyVal.vint 42)⟩,
        fun i => ⟨i, [], none⟩⟩ "n" [] =
      Except.error "Missing required input: x" :=
  ⟨(claim4_validation_advisory
      ⟨[], fun _ => ⟨["x"], fun _ => Except.ok (PyVal.vint 42)⟩,
        fun i => ⟨i, [], none⟩⟩ "n" [] []
      "Missing required input: x" "Missing required input: x").1 rfl rfl,
    (claim4_validation_advisory
      ⟨[], fun _ => ⟨["x"], fun _ => Except.ok (PyVal.vint 42)⟩,
        fun i => ⟨i, [], none⟩⟩ "n" [] []
      "Missing required input: x" "Missing required input: x").2 rfl⟩

/-! ## Pass-failure lemmas -/

theorem amem_aset_self (d : Dict) (k : String) (v : PyVal) :
    amem (aset d k v) k = true := by
  unfold amem
  rw [alookup_aset_self]
  rfl

/-- On a failing pass, the node loop's event trail consists of
executing/completed pairs for a prefix of the order, then the executing
and error events for the failing node, and nothing else. -/
theorem runPassAux_error_shape (cfg : PassConfig) :
    ∀ (order : List String) (results : Dict) (evs evs' : List Event)
      (m : String),
      runPassAux cfg order results evs = (evs', Except.error m) →
      ∃ pre bad post evMid, order = pre ++ bad :: post ∧
        evs' = evs ++ evMid ++ [Event.nodeExecuting bad, Event.nodeError bad m] ∧
        (∀ ev ∈ evMid, (∃ n ∈ pre, ev = Event.nodeExecuting n) ∨
          (∃ n ∈ pre, ∃ rt, ev = Event.nodeCompleted n rt)) := by
  intro order
  induction order with
  | nil =>
    intro results evs evs' m h
    simp [runPassAux] at h
  | cons nodeId rest ih =>
    intro results evs evs' m h
    simp only [runPassAux] at h
    cases hex : executeNodeOptimized cfg nodeId results with
    | ok pr =>
      obtain ⟨a, b⟩ := pr
      rw [hex] at h
      dsimp only at h
      obtain ⟨pre, bad, post, evMid, ho, he, hm⟩ := ih _ _ _ _ h
      refine ⟨nodeId :: pre, bad, post,
        [Event.nodeExecuting nodeId, Event.nodeCompleted nodeId b] ++ evMid,
        by simp [ho], ?_, ?_⟩
      · rw [he]
        simp [List.append_assoc]
      · intro ev hev
        rcases List.mem_append.mp hev with h1 | h1
        · rcases List.mem_cons.mp h1 with h2 | h2
          · exact Or.inl ⟨nodeId, List.mem_cons_self _ _, h2⟩
          · exact Or.inr ⟨nodeId, List.mem_cons_self _ _, b,
              List.mem_singleton.mp h2⟩
        · rcases hm ev h1 with ⟨n, hn, hevn⟩ | ⟨n, hn, rt, hevn⟩
          · exact Or.inl ⟨n, List.mem_cons_of_mem _ hn, hevn⟩
          · exact Or.inr ⟨n, List.mem_cons_of_mem _ hn, rt, hevn⟩
    | error m' =>
      rw [hex] at h
      dsimp only at h
      rw [Prod.mk.injEq] at h
      obtain ⟨h1, h2⟩ := h
      have hm : m' = m := by simpa using h2
      refine ⟨[], nodeId, rest, [], rfl, ?_, by simp⟩
      rw [← h1, hm]
      simp

/-- The basic executor's node loop stores every completed node's output
directly into the engine's result map, so a failing pass keeps the
outputs of the prefix that ran. -/
theorem runPassBasicAux_error_keeps (cfg : PassConfig) :
    ∀ (order : List String) (results final : Dict) (mB : String),
      runPassBasicAux cfg order results = (final, some mB) →
      ∃ pre bad post, order = pre ++ bad :: post ∧
        (∀ n ∈ pre, amem final n = true) ∧
        (∀ k, amem results k = true → amem final k = true) := by
  intro order
  induction order with
  | nil =>
    intro results final mB h
    simp [runPassBasicAux] at h
  | cons nodeId rest ih =>
    intro results final mB h
    simp only [runPassBasicAux] at h
    cases hex : executeNodeBasic cfg nodeId results with
    | ok r =>
      rw [hex] at h
      dsimp only at h
      obtain ⟨pre, bad, post, ho, hpre, hkeep⟩ := ih _ _ _ h
      refine ⟨nodeId :: pre, bad, post, by simp [ho], ?_, ?_⟩
      · intro n hn
        rcases List.mem_cons.mp hn with h2 | h2
        · exact h2 ▸ hkeep nodeId (amem_aset_self results nodeId r)
        · exact hpre n h2
      · intro k hk
        exact hkeep k (amem_aset_of_amem results r hk)
    | error m' =>
      rw [hex] at h
      dsimp only at h
      rw [Prod.mk.injEq] at h
      obtain ⟨h1, _⟩ := h
      refine ⟨[], nodeId, rest, rfl, ?_, fun k hk => h1 ▸ hk⟩
      intro n hn
      cases hn

/-! ## Claim C5 — a failing node aborts the pass; where the partial
outputs survive differs between the two executors -/

/-- C5 (amended): when a node's entry function raises during a pass, an
error node-state event is emitted for that node, the exception is
re-raised to the caller, and no node later in the plan order is executed.
In the continuous executor the pass accumulates into a pass-local map
committed only on success, so after the failed pass the engine's result
map still holds the previous pass's results and the partial outputs of
the failed pass are discarded; in the basic `WorkflowExecutor` each
completed node's output is written to the engine map immediately and
therefore survives the failure. -/
theorem claim5_pass_failure (cfg : PassConfig) (order : List String)
    (prev : Dict) (evs2 : List Event) (mp : Dict) (m : String)
    (hnd : order.Nodup)
    (h : executeWorkflowOnceOptimized cfg order prev = (evs2, mp, some m)) :
    mp = prev ∧
    (∃ pre bad post evMid,
      order = pre ++ bad :: post ∧
      evs2 = evMid ++ [Event.nodeExecuting bad, Event.nodeError bad m] ∧
      (∀ ev ∈ evMid, (∃ n ∈ pre, ev = Event.nodeExecuting n) ∨
        (∃ n ∈ pre, ∃ rt, ev = Event.nodeCompleted n rt)) ∧
      (∀ n ∈ post, Event.nodeExecuting n ∉ evs2)) ∧
    (∀ resultsB finalB mB,
      runPassBasicAux cfg order resultsB = (finalB, some mB) →
      ∃ preB badB postB, order = preB ++ badB :: postB ∧
        ∀ n ∈ preB, amem finalB n = true) := by
  unfold executeWorkflowOnceOptimized at h
  cases hrp : runPassAux cfg order [] [] with
  | mk evs0 res =>
    rw [hrp] at h
    cases res with
    | ok nr => simp at h
    | error m0 =>
      dsimp only at h
      rw [Prod.mk.injEq, Prod.mk.injEq] at h
      obtain ⟨hevs, hmp, hm0⟩ := h
      have hm0' : m0 = m := by simpa using hm0
      subst hm0'
      obtain ⟨pre, bad, post, evMid, ho, he, hm⟩ :=
        runPassAux_error_shape cfg order [] [] evs0 m0 hrp
      rw [List.nil_append] at he
      refine ⟨hmp.symm, ⟨pre, bad, post, evMid, ho, by rw [← hevs, he], hm, ?_⟩,
        fun resultsB finalB mB hB => ?_⟩
      · -- no event mentions a node after the failing one
        intro n hn hmem
        have hordnd : (pre ++ bad :: post).Nodup := ho ▸ hnd
        have hsplit := List.nodup_append.mp hordnd
        have hnpre : n ∉ pre := fun hc =>
          hsplit.2.2 hc (List.mem_cons_of_mem bad hn)
        have hnbad : n ≠ bad := by
          intro hc
          subst hc
          exact (List.nodup_cons.mp hsplit.2.1).1 hn
        rw [← hevs, he] at hmem
        rcases List.mem_append.mp hmem with h1 | h1
        · rcases hm _ h1 with ⟨n', hn', hev⟩ | ⟨n', hn', rt, hev⟩
          · have : n = n' := by
              injection hev
            exact hnpre (this ▸ hn')
          · cases hev
        · rcases List.mem_cons.mp h1 with h2 | h2
          · have : n = bad := by
              injection h2
            exact hnbad this
          · have h3 := List.mem_singleton.mp h2
            cases h3
      · obtain ⟨preB, badB, postB, hoB, hpreB, _⟩ :=
          runPassBasicAux_error_keeps cfg order resultsB finalB mB hB
        exact ⟨preB, badB, postB, hoB, hpreB⟩

/-- C5 counterexample: node `n1` completes with output `1`, node `n2`
raises; after the failed pass the continuous engine's result map is
still the previous map `{old: 0}` — `n1`'s output is *not* available,
refuting the claim that earlier outputs of the same pass remain in the
engine's result map. -/
theorem claim5_partial_outputs_discarded_cex :
    executeWorkflowOnceOptimized
      ⟨[], fun i => if i = "n1" then ⟨[], fun _ => Except.ok (PyVal.vint 1)⟩
        else ⟨[], fun _ => Except.error "boom"⟩, fun i => ⟨i, [], none⟩⟩
      ["n1", "n2"] [("old", PyVal.vint 0)] =
      ([Event.nodeExecuting "n1", Event.nodeCompleted "n1" PyVal.vnone,
        Event.nodeExecuting "n2", Event.nodeError "n2" "boom"],
        [("old", PyVal.vint 0)], some "boom") ∧
    alookup (executeWorkflowOnceOptimized
      ⟨[], fun i => if i = "n1" then ⟨[], fun _ => Except.ok (PyVal.vint 1)⟩
        else ⟨[], fun _ => Except.error "boom"⟩, fun i => ⟨i, [], none⟩⟩
      ["n1", "n2"] [("old", PyVal.vint 0)]).2.1 "n1" = none :=
  ⟨rfl, rfl⟩

/-- C5 witness: the failing two-node pass instantiating the amended
claim. -/
theorem claim5_pass_failure_witness :
    ([("old", PyVal.vint 0)] : Dict) = [("old", PyVal.vint 0)] ∧
    (∃ pre bad post evMid,
      ["n1", "n2"] = pre ++ bad :: post ∧
      [Event.nodeExecuting "n1", Event.nodeCompleted "n1" PyVal.vnone,
        Event.nodeExecuting "n2", Event.nodeError "n2" "boom"] =
        evMid ++ [Event.nodeExecuting bad, Event.nodeError bad "boom"] ∧
      (∀ ev ∈ evMid, (∃ n ∈ pre, ev = Event.nodeExecuting n) ∨
        (∃ n ∈ pre, ∃ rt, ev = Event.nodeCompleted n rt)) ∧
      (∀ n ∈ post, Event.nodeExecuting n ∉
        [Event.nodeExecuting "n1", Event.nodeCompleted "n1" PyVal.vnone,
          Event.nodeExecuting "n2", Event.nodeError "n2" "boom"])) ∧
    (∀ resultsB finalB mB,
      runPassBasicAux
        ⟨[], fun i => if i = "n1" then ⟨[], fun _ => Except.ok (PyVal.vint 1)⟩
          else ⟨[], fun _ => Except.error "boom"⟩, fun i => ⟨i, [], none⟩⟩
        ["n1", "n2"] resultsB = (finalB, some mB) →
      ∃ preB badB postB, ["n1", "n2"] = preB ++ badB :: postB ∧
        ∀ n ∈ preB, amem finalB n = true) :=
  claim5_pass_failure
    ⟨[], fun i => if i = "n1" then ⟨[], fun _ => Except.ok (PyVal.vint 1)⟩
      else ⟨[], fun _ => Except.error "boom"⟩, fun i => ⟨i, [], none⟩⟩
    ["n1", "n2"] [("old", PyVal.vint 0)]
    [Event.nodeExecuting "n1", Event.nodeCompleted "n1" PyVal.vnone,
      Event.nodeExecuting "n2", Event.nodeError "n2" "boom"]
    [("old", PyVal.vint 0)] "boom" (by decide) rfl

/-! ## Continuous-loop lemmas -/

/-- Running the loop from a running state whose next `N - 1` passes
succeed and whose `N`-th pass raises `m` stops the scheduler with the
iteration counter at the last completed iteration and appends exactly the
`loopTrace` events. -/
theorem executionLoop_first_fail (passes : Nat → Except String Dict)
    (m : String) :
    ∀ (N fuel : Nat) (st : LoopState),
      st.isRunning = true →
      (∀ i, st.countOfIterations < i → i < st.countOfIterations + N →
        ∃ d, passes i = Except.ok d) →
      passes (st.countOfIterations + N) = Except.error m →
      1 ≤ N → N ≤ fuel →
      executionLoop passes fuel st =
        ⟨false, st.countOfIterations + N - 1,
          st.events ++ loopTrace m st.countOfIterations N⟩ := by
  intro N
  induction N with
  | zero =>
    intro fuel st _ _ _ h1 _
    omega
  | succ k ihk =>
    intro fuel st hrun hok herr _ hfuel
    cases fuel with
    | zero => omega
    | succ f =>
      cases k with
      | zero =>
        have herr' : passes (st.countOfIterations + 1) = Except.error m := herr
        simp only [executionLoop, hrun, if_true]
        rw [herr']
        dsimp only [stopContinuousExecution]
        simp [loopTrace, List.append_assoc]
      | succ k' =>
        obtain ⟨d, hd⟩ := hok (st.countOfIterations + 1) (by omega) (by omega)
        simp only [executionLoop, hrun, if_true]
        rw [hd]
        dsimp only
        have hrec := ihk f
          ⟨true, st.countOfIterations + 1,
            st.events ++ [Event.iterExecuting (st.countOfIterations + 1)] ++
              [Event.iterCompleted (st.countOfIterations + 1)]⟩
          rfl
          (by
            intro i h1 h2
            dsimp only at h1 h2
            exact hok i (by omega) (by omega))
          (by
            dsimp only
            have harith : st.countOfIterations + 1 + (k' + 1) =
                st.countOfIterations + (k' + 1 + 1) := by omega
            rw [harith]
            exact herr)
          (by omega) (by omega)
        rw [hrec]
        have harith2 : st.countOfIterations + 1 + (k' + 1) - 1 =
            st.countOfIterations + (k' + 1 + 1) - 1 := by omega
        have htr : loopTrace m st.countOfIterations (k' + 1 + 1) =
            [Event.iterExecuting (st.countOfIterations + 1),
              Event.iterCompleted (st.countOfIterations + 1)] ++
              loopTrace m (st.countOfIterations + 1) (k' + 1) := by
          simp [loopTrace]
        rw [htr, harith2]
        simp [List.append_assoc]

theorem loopTrace_iterCompleted_mem (m : String) :
    ∀ (k c i : Nat),
      (Event.iterCompleted i ∈ loopTrace m c (k + 1) ↔ (c + 1 ≤ i ∧ i ≤ c + k)) := by
  intro k
  induction k with
  | zero =>
    intro c i
    simp [loopTrace]
    omega
  | succ k' ih =>
    intro c i
    have htr : loopTrace m c (k' + 1 + 1) =
        [Event.iterExecuting (c + 1), Event.iterCompleted (c + 1)] ++
          loopTrace m (c + 1) (k' + 1) := by
      simp [loopTrace]
    rw [htr]
    simp only [List.mem_append, List.mem_cons, List.not_mem_nil, or_false,
      ih (c + 1) i]
    constructor
    · intro h
      rcases h with (h | h) | h
      · simp at h
      · injection h with h1
        omega
      · omega
    · intro h
      by_cases hi : i = c + 1
      · exact Or.inl (Or.inr (by rw [hi]))
      · exact Or.inr (by omega)

theorem loopTrace_iterExecuting_le (m : String) :
    ∀ (k c i : Nat),
      Event.iterExecuting i ∈ loopTrace m c (k + 1) → i ≤ c + k + 1 := by
  intro k
  induction k with
  | zero =>
    intro c i h
    simp [loopTrace] at h
    omega
  | succ k' ih =>
    intro c i h
    have htr : loopTrace m c (k' + 1 + 1) =
        [Event.iterExecuting (c + 1), Event.iterCompleted (c + 1)] ++
          loopTrace m (c + 1) (k' + 1) := by
      simp [loopTrace]
    rw [htr] at h
    simp only [List.mem_append, List.mem_cons, List.not_mem_nil, or_false] at h
    rcases h with (h | h) | h
    · injection h with h1
      omega
    · simp at h
    · have := ih (c + 1) i h
      omega

theorem loopTrace_workflowError_once (m : String) :
    ∀ (k c : Nat), (loopTrace m c (k + 1)).countP isWorkflowErrorEv = 1 := by
  intro k
  induction k with
  | zero =>
    intro c
    simp [loopTrace, List.countP_cons, isWorkflowErrorEv]
  | succ k' ih =>
    intro c
    have htr : loopTrace m c (k' + 1 + 1) =
        [Event.iterExecuting (c + 1), Event.iterCompleted (c + 1)] ++
          loopTrace m (c + 1) (k' + 1) := by
      simp [loopTrace]
    rw [htr]
    simp [List.countP_cons, isWorkflowErrorEv, ih (c + 1)]

theorem loopTrace_stopped_mem (m : String) :
    ∀ (k c : Nat), Event.continuousStopped (c + k) ∈ loopTrace m c (k + 1) := by
  intro k
  induction k with
  | zero =>
    intro c
    simp [loopTrace]
  | succ k' ih =>
    intro c
    have htr : loopTrace m c (k' + 1 + 1) =
        [Event.iterExecuting (c + 1), Event.iterCompleted (c + 1)] ++
          loopTrace m (c + 1) (k' + 1) := by
      simp [loopTrace]
    rw [htr]
    refine List.mem_append_right _ ?_
    have := ih (c + 1)
    have harith : c + 1 + k' = c + (k' + 1) := by omega
    rw [harith] at this
    exact this

/-! ## Claim C6 — a pass failure in a continuous run is fatal to the
loop -/

/-- C6: if in a continuous run the passes of iterations `1 .. N-1`
succeed and the pass of iteration `N` raises, then the loop ends with the
running flag false, the iteration counter at `N - 1`, an
`iterationCompleted` broadcast exactly for iterations `1 .. N-1`, exactly
one `workflowError` broadcast, a `continuous_stopped` broadcast with
total `N - 1`, and no iteration beyond `N` ever starts. -/
theorem claim6_pass_failure_fatal (passes : Nat → Except String Dict)
    (N fuel : Nat) (m : String)
    (hok : ∀ i, 1 ≤ i → i < N → ∃ d, passes i = Except.ok d)
    (herr : passes N = Except.error m)
    (hN : 1 ≤ N) (hfuel : N ≤ fuel) :
    executionLoop passes fuel ⟨true, 0, []⟩ = ⟨false, N - 1, loopTrace m 0 N⟩ ∧
    (∀ i, Event.iterCompleted i ∈ loopTrace m 0 N ↔ (1 ≤ i ∧ i ≤ N - 1)) ∧
    (loopTrace m 0 N).countP isWorkflowErrorEv = 1 ∧
    (∀ i, Event.iterExecuting i ∈ loopTrace m 0 N → i ≤ N) ∧
    Event.continuousStopped (N - 1) ∈ loopTrace m 0 N := by
  obtain ⟨k, rfl⟩ : ∃ k, N = k + 1 := ⟨N - 1, by omega⟩
  refine ⟨?_, ?_, loopTrace_workflowError_once m k 0, ?_, ?_⟩
  · have h := executionLoop_first_fail passes m (k + 1) fuel ⟨true, 0, []⟩ rfl
      (by
        intro i h1 h2
        dsimp only at h1 h2
        exact hok i (by omega) (by omega))
      (by simpa using herr) (by omega) hfuel
    simpa using h
  · intro i
    have := loopTrace_iterCompleted_mem m k 0 i
    simpa using this
  · intro i hi
    have := loopTrace_iterExecuting_le m k 0 i hi
    omega
  · have := loopTrace_stopped_mem m k 0
    simpa using this

/-- C6 witness: passes 1 and 2 succeed, pass 3 raises; completed events
fire for 1 and 2 only, one workflow error, the loop stops at count 2. -/
theorem claim6_pass_failure_fatal_witness :
    executionLoop (fun i => if i ≤ 2 then Except.ok [] else Except.error "boom")
      5 ⟨true, 0, []⟩ = ⟨false, 3 - 1, loopTrace "boom" 0 3⟩ ∧
    (∀ i, Event.iterCompleted i ∈ loopTrace "boom" 0 3 ↔ (1 ≤ i ∧ i ≤ 3 - 1)) ∧
    (loopTrace "boom" 0 3).countP isWorkflowErrorEv = 1 ∧
    (∀ i, Event.iterExecuting i ∈ loopTrace "boom" 0 3 → i ≤ 3) ∧
    Event.continuousStopped (3 - 1) ∈ loopTrace "boom" 0 3 :=
  claim6_pass_failure_fatal
    (fun i => if i ≤ 2 then Except.ok [] else Except.error "boom") 3 5 "boom"
    (fun i _ h2 => ⟨[], by
      have hi : i ≤ 2 := by omega
      simp [hi]⟩)
    (by norm_num) (by omega) (by omega)

/-! ## Claim C7 — start() is a guarded no-op; a successful start launches
exactly one worker -/

/-- C7 (amended): calling `start_continuous_execution` while already
running, or with no workflow loaded, leaves the running flag, the
iteration count, and the worker thread unchanged — the only effect is an
appended log entry, which is a warning when already running but an
*error-level* message (not a warning) when no workflow is loaded.  A
successful start sets the running flag, resets the iteration count to
zero, and launches exactly one new dedicated worker. -/
theorem claim7_start_guarded_noop (st : ExecState) :
    (st.isRunning = true →
      startContinuousExecution st =
        { st with logs := st.logs ++ [("warning", "Continuous execution is already running")] }) ∧
    (st.isRunning = false → st.hasWorkflow = false →
      startContinuousExecution st =
        { st with logs := st.logs ++ [("error", "No workflow loaded. Cannot start execution.")] }) ∧
    (st.isRunning = false → st.hasWorkflow = true →
      startContinuousExecution st =
        { st with
            isRunning := true
            countOfIterations := 0
            thread := some st.nextThreadId
            nextThreadId := st.nextThreadId + 1
            logs := st.logs ++ [("info", "Started continuous execution")] }) := by
  refine ⟨?_, ?_, ?_⟩
  · intro h
    simp [startContinuousExecution, h]
  · intro h1 h2
    simp [startContinuousExecution, h1, h2]
  · intro h1 h2
    simp [startContinuousExecution, h1, h2]

/-- C7 counterexample: with no workflow loaded, `start()` appends an
*error-level* log entry and no warning-level entry at all, refuting the
claim's "no-op apart from a warning" for that branch (the state frame
itself is preserved). -/
theorem claim7_no_workflow_error_level_cex :
    startContinuousExecution ⟨false, false, 5, none, 0, []⟩ =
      ⟨false, false, 5, none, 0,
        [("error", "No workflow loaded. Cannot start execution.")]⟩ ∧
    ((startContinuousExecution ⟨false, false, 5, none, 0, []⟩).logs.filter
      (fun e => e.1 == "warning")) = [] :=
  ⟨rfl, rfl⟩

/-- C7 witness: a second `start()` on a running state changes only the
log, and a legitimate start resets the count and launches worker 4. -/
theorem claim7_start_guarded_noop_witness :
    startContinuousExecution ⟨true, true, 7, some 0, 1, []⟩ =
      { isRunning := true, hasWorkflow := true, countOfIterations := 7,
        thread := some 0, nextThreadId := 1,
        logs := [("warning", "Continuous execution is already running")] } ∧
    startContinuousExecution ⟨false, true, 7, none, 4, []⟩ =
      { isRunning := true, hasWorkflow := true, countOfIterations := 0,
        thread := some 4, nextThreadId := 5,
        logs := [("info", "Started continuous execution")] } :=
  ⟨(claim7_start_guarded_noop ⟨true, true, 7, some 0, 1, []⟩).1 rfl,
    (claim7_start_guarded_noop ⟨false, true, 7, none, 4, []⟩).2.2 rfl rfl⟩

/-! ## Claim C8 — a 2-element return is (outputs, liveUpdate) -/

/-- C8: a node return value that is a 2-tuple is interpreted as
`(outputs, liveUpdate)` and any other shape as the outputs alone with no
live update; during a pass only the first component is stored into the
result map consumed by downstream nodes, and the second component is
published only through the completed-state broadcast. -/
theorem claim8_two_tuple_live_update (cfg : PassConfig) (nodeId : String)
    (results inputs : Dict) (r : PyVal) (rest : List String)
    (evs : List Event)
    (hprep : prepareNodeInputs cfg.edges nodeId (cfg.nodeData nodeId) results =
      Except.ok inputs)
    (hrun : (cfg.classes nodeId).run inputs = Except.ok r) :
    executeNodeOptimized cfg nodeId results = Except.ok (interpResult r) ∧
    (∀ a b, r = PyVal.vtup [a, b] → interpResult r = (a, b)) ∧
    (r.isPair = false → interpResult r = (r, PyVal.vnone)) ∧
    runPassAux cfg (nodeId :: rest) results evs =
      runPassAux cfg rest
        (if (interpResult r).1.isNone then results
          else aset results nodeId (interpResult r).1)
        (evs ++ [Event.nodeExecuting nodeId] ++
          [Event.nodeCompleted nodeId (interpResult r).2]) := by
  have hexec : executeNodeOptimized cfg nodeId results =
      Except.ok (interpResult r) := by
    unfold executeNodeOptimized
    rw [hprep]
    dsimp only
    rw [hrun]
  refine ⟨hexec, ?_, ?_, ?_⟩
  · intro a b h
    rw [h]
    rfl
  · intro hp
    cases r with
    | vtup vs =>
      cases vs with
      | nil => rfl
      | cons a tail =>
        cases tail with
        | nil => rfl
        | cons b tail2 =>
          cases tail2 with
          | nil => simp [PyVal.isPair] at hp
          | cons c tail3 => rfl
    | vnone => rfl
    | vint n => rfl
    | vstr s => rfl
    | vlist vs => rfl
    | vdict kvs => rfl
  · simp only [runPassAux]
    rw [hexec]

/-- C8 witness: a node returning the pair `(1, "live")` stores `1` and
broadcasts `"live"` in its completed event. -/
theorem claim8_two_tuple_live_update_witness :
    executeNodeOptimized
      ⟨[], fun _ => ⟨[], fun _ => Except.ok (PyVal.vtup [PyVal.vint 1, PyVal.vstr "live"])⟩,
        fun i => ⟨i, [], none⟩⟩ "n" [] =
      Except.ok (interpResult (PyVal.vtup [PyVal.vint 1, PyVal.vstr "live"])) ∧
    (∀ a b, PyVal.vtup [PyVal.vint 1, PyVal.vstr "live"] = PyVal.vtup [a, b] →
      interpResult (PyVal.vtup [PyVal.vint 1, PyVal.vstr "live"]) = (a, b)) ∧
    ((PyVal.vtup [PyVal.vint 1, PyVal.vstr "live"]).isPair = false →
      interpResult (PyVal.vtup [PyVal.vint 1, PyVal.vstr "live"]) =
        (PyVal.vtup [PyVal.vint 1, PyVal.vstr "live"], PyVal.vnone)) ∧
    runPassAux
      ⟨[], fun _ => ⟨[], fun _ => Except.ok (PyVal.vtup [PyVal.vint 1, PyVal.vstr "live"])⟩,
        fun i => ⟨i, [], none⟩⟩ ["n"] [] [] =
      runPassAux
        ⟨[], fun _ => ⟨[], fun _ => Except.ok (PyVal.vtup [PyVal.vint 1, PyVal.vstr "live"])⟩,
          fun i => ⟨i, [], none⟩⟩ []
        (if (interpResult (PyVal.vtup [PyVal.vint 1, PyVal.vstr "live"])).1.isNone then []
          else aset [] "n" (interpResult (PyVal.vtup [PyVal.vint 1, PyVal.vstr "live"])).1)
        ([] ++ [Event.nodeExecuting "n"] ++
          [Event.nodeCompleted "n"
            (interpResult (PyVal.vtup [PyVal.vint 1, PyVal.vstr "live"])).2]) :=
  claim8_two_tuple_live_update
    ⟨[], fun _ => ⟨[], fun _ => Except.ok (PyVal.vtup [PyVal.vint 1, PyVal.vstr "live"])⟩,
      fun i => ⟨i, [], none⟩⟩ "n" [] []
    (PyVal.vtup [PyVal.vint 1, PyVal.vstr "live"]) [] [] rfl rfl

/-! ## Claim C9 — live parameter updates mutate only the cached placement -/

/-- C9: `update_node_parameter` returns `False` and leaves the state
untouched whenever the plan is not set up or the node id is not in the
cached node-data map (and, being wrapped in `try/except`, never raises);
on success it returns `True` and mutates only that placement's parameter
dict — the compiled execution order, the node instances, the setup flag,
and every other placement are unchanged, so no recompilation is
triggered. -/
theorem claim9_update_parameter_frame (st : PlanState)
    (nodeId pname : String) (v : PyVal) :
    ((st.isSetup = false ∨ amem st.nodeDataMap nodeId = false) →
      updateNodeParameter st nodeId pname v = (false, st)) ∧
    (∀ node, st.isSetup = true → alookup st.nodeDataMap nodeId = some node →
      (updateNodeParameter st nodeId pname v).1 = true ∧
      (updateNodeParameter st nodeId pname v).2.isSetup = st.isSetup ∧
      (updateNodeParameter st nodeId pname v).2.executionOrder =
        st.executionOrder ∧
      (updateNodeParameter st nodeId pname v).2.nodeInstances =
        st.nodeInstances ∧
      (∀ k, k ≠ nodeId →
        alookup (updateNodeParameter st nodeId pname v).2.nodeDataMap k =
          alookup st.nodeDataMap k) ∧
      alookup (updateNodeParameter st nodeId pname v).2.nodeDataMap nodeId =
        some { node with params := aset node.params pname v }) := by
  constructor
  · intro h
    rcases h with h | h <;>
      simp [updateNodeParameter, h]
  · intro node hsetup hlook
    have hmem : amem st.nodeDataMap nodeId = true := by
      unfold amem
      rw [hlook]
      rfl
    have hcond : (st.isSetup && amem st.nodeDataMap nodeId) = true := by
      rw [hsetup, hmem]
      rfl
    refine ⟨?_, ?_, ?_, ?_, ?_, ?_⟩
    · simp [updateNodeParameter, hcond]
    · simp [updateNodeParameter, hcond]
    · simp [updateNodeParameter, hcond]
    · simp [updateNodeParameter, hcond]
    · intro k hk
      simp only [updateNodeParameter, hcond, if_true]
      exact alookup_amodify_ne st.nodeDataMap _ hk
    · simp only [updateNodeParameter, hcond, if_true]
      exact alookup_amodify_self st.nodeDataMap _ hlook

/-- C9 witness: updating `p` on the cached node `n` succeeds and touches
nothing but that placement's parameters; on a torn-down plan it returns
`False` with the state unchanged. -/
theorem claim9_update_parameter_frame_witness :
    updateNodeParameter ⟨false, ["n"], [("n", ⟨"n", [], none⟩)], [("n", 0)]⟩
      "n" "p" (PyVal.vint 3) =
      (false, ⟨false, ["n"], [("n", ⟨"n", [], none⟩)], [("n", 0)]⟩) ∧
    (updateNodeParameter ⟨true, ["n"], [("n", ⟨"n", [], none⟩)], [("n", 0)]⟩
      "n" "p" (PyVal.vint 3)).1 = true ∧
    (updateNodeParameter ⟨true, ["n"], [("n", ⟨"n", [], none⟩)], [("n", 0)]⟩
      "n" "p" (PyVal.vint 3)).2.executionOrder = ["n"] ∧
    alookup (updateNodeParameter ⟨true, ["n"], [("n", ⟨"n", [], none⟩)],
      [("n", 0)]⟩ "n" "p" (PyVal.vint 3)).2.nodeDataMap "n" =
      some ⟨"n", [("p", PyVal.vint 3)], none⟩ := by
  have h1 := (claim9_update_parameter_frame
    ⟨false, ["n"], [("n", ⟨"n", [], none⟩)], [("n", 0)]⟩ "n" "p"
    (PyVal.vint 3)).1 (Or.inl rfl)
  have h2 := (claim9_update_parameter_frame
    ⟨true, ["n"], [("n", ⟨"n", [], none⟩)], [("n", 0)]⟩ "n" "p"
    (PyVal.vint 3)).2 ⟨"n", [], none⟩ rfl rfl
  exact ⟨h1, h2.1, h2.2.2.1, h2.2.2.2.2.2⟩

/-! ## C10 lemmas — the pass writes only its own non-None outputs -/

/-- Nodes not in the remaining order never change their entry. -/
theorem runPassAux_frame (cfg : PassConfig) :
    ∀ (order : List String) (results : Dict) (evs evs' : List Event)
      (final : Dict) (v : String), v ∉ order →
      runPassAux cfg order results evs = (evs', Except.ok final) →
      alookup final v = alookup results v := by
  intro order
  induction order with
  | nil =>
    intro results evs evs' final v _ h
    simp only [runPassAux, Prod.mk.injEq] at h
    obtain ⟨_, h2⟩ := h
    have : results = final := by simpa using h2
    rw [this]
  | cons nodeId rest ih =>
    intro results evs evs' final v hv h
    have hvn : v ≠ nodeId := fun hc => hv (hc ▸ List.mem_cons_self _ _)
    have hvr : v ∉ rest := fun hc => hv (List.mem_cons_of_mem _ hc)
    simp only [runPassAux] at h
    cases hex : executeNodeOptimized cfg nodeId results with
    | ok pr =>
      obtain ⟨a, b⟩ := pr
      rw [hex] at h
      dsimp only at h
      have := ih _ _ _ _ v hvr h
      rw [this]
      by_cases hn : a.isNone
      · simp [hn]
      · simp only [hn, Bool.false_eq_true, if_false]
        exact alookup_aset_ne results a hvn
    | error m' =>
      rw [hex] at h
      dsimp only at h
      rw [Prod.mk.injEq] at h
      exact absurd h.2 (by simp)

/-! ## Claim C10 — a None output leaves no entry in the result map -/

/-- C10: after a successful pass every entry of the result map is the
non-`None` first component of some executed node's interpreted return
(inherited entries aside — each pass starts from an empty map); a node
whose interpreted output is `None` leaves its entry unchanged (absent
when starting empty), and an edge whose source has no entry contributes
nothing to downstream inputs. -/
theorem claim10_none_output_no_entry (cfg : PassConfig)
    (order : List String) (hnd : order.Nodup) :
    (∀ (results : Dict) (evs evs' : List Event) (final : Dict),
      runPassAux cfg order results evs = (evs', Except.ok final) →
      (∀ v w, alookup final v = some w →
        alookup results v = some w ∨ (v ∈ order ∧ w.isNone = false)) ∧
      (∀ v ∈ order, ∃ mid r rt,
        executeNodeOptimized cfg v mid = Except.ok (r, rt) ∧
        (r.isNone = true → alookup final v = alookup results v) ∧
        (r.isNone = false → alookup final v = some r))) ∧
    (∀ (d inputs : Dict) (e : Edge) (tgt : String),
      alookup d e.source = none →
      applyEdge tgt d inputs e = Except.ok inputs) := by
  constructor
  · induction order with
    | nil =>
      intro results evs evs' final h
      simp only [runPassAux, Prod.mk.injEq] at h
      have hrf : results = final := by simpa using h.2
      constructor
      · intro v w hw
        rw [hrf]
        exact Or.inl hw
      · intro v hv
        cases hv
    | cons nodeId rest iho =>
      intro results evs evs' final h
      have hnd' : rest.Nodup := (List.nodup_cons.mp hnd).2
      have hni : nodeId ∉ rest := (List.nodup_cons.mp hnd).1
      simp only [runPassAux] at h
      cases hex : executeNodeOptimized cfg nodeId results with
      | ok pr =>
        obtain ⟨a, b⟩ := pr
        rw [hex] at h
        dsimp only at h
        obtain ⟨ih1, ih2⟩ := iho hnd' _ _ _ _ h
        constructor
        · intro v w hw
          rcases ih1 v w hw with h1 | h1
          · by_cases hn : a.isNone
            · simp only [hn, if_true] at h1
              exact Or.inl h1
            · simp only [hn, Bool.false_eq_true, if_false] at h1
              by_cases hvn : v = nodeId
              · subst hvn
                rw [alookup_aset_self] at h1
                have hw' : w = a := by
                  injection h1 with hh
                  exact hh.symm
                right
                refine ⟨List.mem_cons_self _ _, ?_⟩
                rw [hw']
                cases ha : a.isNone
                · rfl
                · exact absurd ha (by simpa using hn)
              · rw [alookup_aset_ne results a hvn] at h1
                exact Or.inl h1
          · exact Or.inr ⟨List.mem_cons_of_mem _ h1.1, h1.2⟩
        · intro v hv
          rcases List.mem_cons.mp hv with hveq | hvr
          · subst hveq
            refine ⟨results, a, b, hex, ?_, ?_⟩
            · intro hn
              rw [runPassAux_frame cfg rest _ _ _ _ v hni h]
              simp [hn]
            · intro hn
              rw [runPassAux_frame cfg rest _ _ _ _ v hni h]
              simp only [hn, Bool.false_eq_true, if_false]
              exact alookup_aset_self results v a
          · obtain ⟨mid, r, rt, hrun, hnone, hsome⟩ := ih2 v hvr
            have hvn : v ≠ nodeId := fun hc => hni (hc ▸ hvr)
            refine ⟨mid, r, rt, hrun, ?_, hsome⟩
            intro hn
            rw [hnone hn]
            by_cases ha : a.isNone
            · simp [ha]
            · simp only [ha, Bool.false_eq_true, if_false]
              exact alookup_aset_ne results a hvn
      | error m' =>
        rw [hex] at h
        dsimp only at h
        rw [Prod.mk.injEq] at h
        exact absurd h.2 (by simp)
  · intro d inputs e tgt hnone
    by_cases ht : e.target = tgt <;>
      simp [applyEdge, ht, hnone]

/-- C10 witness: a single node returning `None` leaves the (initially
empty) result map without an entry for it, and an edge from it resolves
to nothing downstream. -/
theorem claim10_none_output_no_entry_witness :
    ((∀ v w, alookup ([] : Dict) v = some w →
        alookup ([] : Dict) v = some w ∨ (v ∈ ["n"] ∧ w.isNone = false)) ∧
      (∀ v ∈ ["n"], ∃ mid r rt,
        executeNodeOptimized
          ⟨[], fun _ => ⟨[], fun _ => Except.ok PyVal.vnone⟩,
            fun i => ⟨i, [], none⟩⟩ v mid = Except.ok (r, rt) ∧
        (r.isNone = true → alookup ([] : Dict) v = alookup ([] : Dict) v) ∧
        (r.isNone = false → alookup ([] : Dict) v = some r))) ∧
    (∀ (d inputs : Dict) (e : Edge) (tgt : String),
      alookup d e.source = none →
      applyEdge tgt d inputs e = Except.ok inputs) :=
  ⟨(claim10_none_output_no_entry
      ⟨[], fun _ => ⟨[], fun _ => Except.ok PyVal.vnone⟩,
        fun i => ⟨i, [], none⟩⟩ ["n"] (by decide)).1 [] []
      [Event.nodeExecuting "n", Event.nodeCompleted "n" PyVal.vnone] [] rfl,
    (claim10_none_output_no_entry
      ⟨[], fun _ => ⟨[], fun _ => Except.ok PyVal.vnone⟩,
        fun i => ⟨i, [], none⟩⟩ ["n"] (by decide)).2⟩

end FactoryUI
